import Mathlib

/-!
Shallow embedding of the combo-skills composition resolution engine.

Sources embedded here:
* `src/compiler/modifierValidator.ts` — modifier parsing and validation;
* `src/compiler/graphResolver.ts` — dependency graph building, cycle
  detection, topological sorting, constraint validation;
* `src/registry/skillsResolver.ts` — batch skill resolution (the external
  registry lookup itself is abstracted as an oracle parameter);
* `src/index.ts` together with `src/compiler/llmCompiler.ts` — the
  compilation orchestrator (file emission and logging are omitted; the
  wall-clock timestamp fields of the synthesized artifact are omitted).

JavaScript-specific behaviour is modelled explicitly: `parseInt` may
return NaN (`JSNum.nan`), a thrown exception is an `Except.error`, a
`Map` is an insertion-ordered association list, and a `Set` is a
duplicate-free list.
-/

/-- Decidable equality for `Except`, used to evaluate the embedded
functions on concrete inputs. -/
instance {ε α : Type} [DecidableEq ε] [DecidableEq α] : DecidableEq (Except ε α) := fun x y =>
  match x, y with
  | .ok a, .ok b =>
      if h : a = b then .isTrue (by rw [h]) else .isFalse (by simp [h])
  | .error a, .error b =>
      if h : a = b then .isTrue (by rw [h]) else .isFalse (by simp [h])
  | .ok _, .error _ => .isFalse (fun h => Except.noConfusion h)
  | .error _, .ok _ => .isFalse (fun h => Except.noConfusion h)

/-- A JavaScript number as produced by `parseInt`: either an integer or NaN. -/
inductive JSNum where
  | nan : JSNum
  | int (n : Int) : JSNum
deriving DecidableEq, Repr

/-- A primitive JavaScript value stored in a modifier configuration object. -/
inductive JSPrim where
  | str (s : String) : JSPrim
  | num (n : JSNum) : JSPrim
  | bool (b : Bool) : JSPrim
deriving DecidableEq, Repr

/-- A modifier configuration object (`Record<string, unknown>`),
as an ordered association list. -/
abbrev Config := List (String × JSPrim)

/-- A modifier declaration: compact string form or expanded mapping form.
The expanded form is a JavaScript object, i.e. an ordered association list
whose keys are arbitrary strings (the source casts them to `ModifierType`
without checking). -/
inductive Modifier where
  | compact (s : String) : Modifier
  | structured (fields : List (String × Config)) : Modifier
deriving DecidableEq, Repr

/-- The five capability categories (`SkillPrimitive` in `types.ts`). -/
inductive SkillPrimitive where
  | read | write | search | execute | transform
deriving DecidableEq, Repr

/-- The registry name of a capability category. -/
def primName : SkillPrimitive → String
  | .read => "read"
  | .write => "write"
  | .search => "search"
  | .execute => "execute"
  | .transform => "transform"

/-- `MODIFIER_TYPES`: the ten valid modifier kinds, in source order
(which is also the alternation order of `PREFIX_MODIFIER_REGEX`). -/
def MODIFIER_TYPES : List String :=
  ["retry", "cache", "timeout", "auth", "rate-limit",
   "log", "fallback", "batch", "parallel", "dry-run"]

/-- Three-valued compatibility verdict of the kind × category matrix. -/
inductive Compat where
  | ok | warn | no
deriving DecidableEq, Repr

/-- `MODIFIER_PRIMITIVE_COMPATIBILITY`: row lookup of the fixed matrix.
An unknown kind has no row (the JavaScript lookup yields `undefined`). -/
def compatRow (kind : String) : Option (SkillPrimitive → Compat) :=
  if kind = "retry" then some fun p => match p with
    | .read => .ok | .write => .ok | .search => .ok | .execute => .ok | .transform => .no
  else if kind = "cache" then some fun p => match p with
    | .read => .ok | .write => .no | .search => .ok | .execute => .no | .transform => .ok
  else if kind = "timeout" then some fun p => match p with
    | .read => .ok | .write => .ok | .search => .ok | .execute => .ok | .transform => .ok
  else if kind = "auth" then some fun p => match p with
    | .read => .ok | .write => .ok | .search => .ok | .execute => .ok | .transform => .no
  else if kind = "rate-limit" then some fun p => match p with
    | .read => .ok | .write => .ok | .search => .ok | .execute => .ok | .transform => .no
  else if kind = "log" then some fun p => match p with
    | .read => .ok | .write => .ok | .search => .ok | .execute => .ok | .transform => .ok
  else if kind = "fallback" then some fun p => match p with
    | .read => .ok | .write => .warn | .search => .ok | .execute => .warn | .transform => .ok
  else if kind = "batch" then some fun p => match p with
    | .read => .ok | .write => .ok | .search => .ok | .execute => .no | .transform => .ok
  else if kind = "parallel" then some fun p => match p with
    | .read => .ok | .write => .warn | .search => .ok | .execute => .warn | .transform => .ok
  else if kind = "dry-run" then some fun p => match p with
    | .read => .no | .write => .ok | .search => .no | .execute => .ok | .transform => .no
  else none

/-- `INCOMPATIBLE_MODIFIER_PAIRS`: mutually exclusive kind pairs. -/
def INCOMPATIBLE_MODIFIER_PAIRS : List (String × String × String) :=
  [("cache", "dry-run", "Caching simulated results may cause confusion"),
   ("batch", "parallel", "Use one or the other for collection processing")]

/-- `STACKING_ORDER_WARNINGS`: order-sensitive adjacent kind pairs. -/
def STACKING_ORDER_WARNINGS : List (String × String × String) :=
  [("cache", "retry", "Cache before retry may cache failures; prefer retry → cache"),
   ("dry-run", "cache", "Dry-run before cache may cache simulated results")]

/-- Characters treated as whitespace by JavaScript `parseInt`. -/
def jsWS (c : Char) : Bool :=
  c = ' ' || c = '\t' || c = '\n' || c = '\r' || c = '\u000B' || c = '\u000C' ||
  c = '\u00A0' || c = '\u2028' || c = '\u2029' || c = '\uFEFF'

/-- Value of a nonempty decimal digit string. -/
def digitsVal (ds : List Char) : Int :=
  ds.foldl (fun acc c => acc * 10 + (c.toNat - 48 : Int)) 0

/-- Parse leading decimal digits after an optional sign; NaN when none. -/
def intFromDigits (sign : Int) (cs : List Char) : JSNum :=
  let ds := cs.takeWhile Char.isDigit
  if ds.isEmpty then .nan else .int (sign * digitsVal ds)

/-- JavaScript `parseInt(s, 10)`. -/
def parseIntJS (s : String) : JSNum :=
  match s.data.dropWhile jsWS with
  | '-' :: r => intFromDigits (-1) r
  | '+' :: r => intFromDigits 1 r
  | r => intFromDigits 1 r

/-- A character matched by `.` in a JavaScript regex (no line terminators). -/
def jsDotChar (c : Char) : Bool :=
  !(c = '\n' || c = '\r' || c = '\u2028' || c = '\u2029')

/-- Match one alternative of `PREFIX_MODIFIER_REGEX` (`^kind(?::(.+))?$`)
against the character list of the input: `some none` when the input is the
bare kind, `some (some v)` when it is `kind:v` with `v` nonempty and free of
line terminators, `none` otherwise. -/
def prefixSplit (kind : List Char) (s : List Char) : Option (Option (List Char)) :=
  if s = kind then some none
  else if s.take (kind.length + 1) = kind ++ [':'] then
    let v := s.drop (kind.length + 1)
    if v ≠ [] ∧ v.all jsDotChar then some (some v) else none
  else none

/-- Match `PREFIX_MODIFIER_REGEX` against a compact modifier string,
trying the ten kinds in alternation order. -/
def matchKindValue (s : String) : Option (String × Option String) :=
  MODIFIER_TYPES.findSome? fun k =>
    (prefixSplit k.data s.data).map fun v => (k, v.map fun cs => String.mk cs)

/-- The normalized form of a modifier (`ParsedModifier` in `types.ts`).
`type` is a string because the source obtains it by an unchecked cast. -/
structure ParsedModifier where
  type : String
  config : Config
  raw : Modifier
deriving DecidableEq, Repr

/-- `rate-limit` value interpretation: `"N/unit"` or a bare `parseInt`. -/
def rateLimitValue (v : String) : Config :=
  let ds := v.data.takeWhile Char.isDigit
  match v.data.drop ds.length with
  | ['/', u] =>
      if (u = 's' || u = 'm' || u = 'h') && !ds.isEmpty then
        [("requests", .num (.int (digitsVal ds))), ("window", .str (String.mk ['1', u]))]
      else [("requests", .num (parseIntJS v))]
  | _ => [("requests", .num (parseIntJS v))]

/-- `parsePrefixValue`: interpret the value portion of a compact modifier.
Value content is never validated here; `parseInt` may yield NaN. -/
def parsePrefixValue (type : String) (value : Option String) : Config :=
  match value with
  | none => []
  | some v =>
    if v = "" then []
    else if type = "retry" then [("attempts", .num (parseIntJS v))]
    else if type = "cache" then [("ttl", .str v)]
    else if type = "timeout" then [("duration", .str v)]
    else if type = "auth" then [("type", .str v)]
    else if type = "rate-limit" then rateLimitValue v
    else if type = "log" then [("level", .str v)]
    else if type = "fallback" then [("skill", .str v)]
    else if type = "batch" then [("size", .num (parseIntJS v))]
    else if type = "parallel" then [("concurrency", .num (parseIntJS v))]
    else if type = "dry-run" then [("log", .bool (v ≠ "false"))]
    else []

/-- `parsePrefixModifier`: parse a compact modifier string, or throw. -/
def parsePrefixModifier (s : String) : Except String ParsedModifier :=
  match matchKindValue s with
  | none => .error ("Invalid modifier format: " ++ s)
  | some (k, v) => .ok ⟨k, parsePrefixValue k v, .compact s⟩

/-- `parseStructuredModifier`: parse an expanded mapping, or throw.
The single key is taken as the kind without membership checking. -/
def parseStructuredModifier (fields : List (String × Config)) :
    Except String ParsedModifier :=
  match fields with
  | [] => .error "Structured modifier must have at least one key"
  | [(k, cfg)] => .ok ⟨k, cfg, .structured fields⟩
  | _ => .error ("Structured modifier should have only one key, got: " ++
      String.intercalate ", " (fields.map Prod.fst))

/-- `parseModifier`: normalize either declaration form. -/
def parseModifier : Modifier → Except String ParsedModifier
  | .compact s => parsePrefixModifier s
  | .structured fields => parseStructuredModifier fields

/-- `ModifierValidationResult`. -/
structure ModifierValidationResult where
  valid : Bool
  errors : List String
  warnings : List String
  parsed : List ParsedModifier
deriving DecidableEq, Repr

/-- Parse phase of `validateModifiers`: each declaration is parsed inside
a try/catch, so one failure does not abort the batch. Returns the
accumulated error messages and the successfully parsed list. -/
def parsePhase (modifiers : List Modifier) : List String × List ParsedModifier :=
  modifiers.foldl
    (fun acc m => match parseModifier m with
      | .ok p => (acc.1, acc.2 ++ [p])
      | .error e => (acc.1 ++ [e], acc.2))
    ([], [])

/-- One compatibility check of a parsed modifier against one category.
A kind with no matrix row reproduces the JavaScript `TypeError` thrown by
indexing `undefined`. -/
def compatCheck (p : ParsedModifier) (prim : SkillPrimitive) :
    Except String (Option String × Option String) :=
  match compatRow p.type with
  | none => .error ("TypeError: Cannot read properties of undefined (reading \x27" ++
      primName prim ++ "\x27)")
  | some row =>
    match row prim with
    | .no => .ok (some ("Modifier \x27" ++ p.type ++ "\x27 is incompatible with primitive \x27" ++
        primName prim ++ "\x27"), none)
    | .warn => .ok (none, some ("Modifier \x27" ++ p.type ++ "\x27 with primitive \x27" ++
        primName prim ++ "\x27 may have unexpected behavior"))
    | .ok => .ok (none, none)

/-- Inner loop of the compatibility phase: one parsed modifier against
every declared category, in order. -/
def compatOne (p : ParsedModifier) : List SkillPrimitive → List String × List String →
    Except String (List String × List String)
  | [], acc => .ok acc
  | prim :: rest, acc =>
    match compatCheck p prim with
    | .error e => .error e
    | .ok (oe, ow) =>
        compatOne p rest (acc.1 ++ oe.toList, acc.2 ++ ow.toList)

/-- Compatibility phase of `validateModifiers`, accumulating errors and
warnings in encounter order. -/
def compatPhase (prims : List SkillPrimitive) :
    List ParsedModifier → List String × List String →
    Except String (List String × List String)
  | [], acc => .ok acc
  | p :: rest, acc =>
    match compatOne p prims acc with
    | .error e => .error e
    | .ok acc2 => compatPhase prims rest acc2

/-- Mutual-exclusion phase: one error per incompatible pair present. -/
def pairErrors (types : List String) : List String :=
  INCOMPATIBLE_MODIFIER_PAIRS.filterMap fun t =>
    match t with
    | (a, b, message) =>
      if a ∈ types && b ∈ types then
        some ("Incompatible modifiers: \x27" ++ a ++ "\x27 and \x27" ++ b ++ "\x27 - " ++ message)
      else none

/-- Stacking-order phase: warnings for adjacent pairs of the parsed list
matching the fixed order-sensitive table. -/
def stackingWarnings (types : List String) : List String :=
  (types.zip (types.drop 1)).flatMap fun pr =>
    STACKING_ORDER_WARNINGS.filterMap fun t =>
      match t with
      | (first, second, message) =>
        if pr.1 = first && pr.2 = second then some ("Stacking order: " ++ message)
        else none

/-- `validateModifiers`: parse every declaration, check category
compatibility, mutual exclusion and stacking order. The `Except` layer
models the uncaught `TypeError` of the compatibility lookup; everything
else is reported in the structured result. -/
def validateModifiers (modifiers : List Modifier)
    (primitives : Option (List SkillPrimitive) := none) :
    Except String ModifierValidationResult :=
  let pp := parsePhase modifiers
  let compatStep :=
    match primitives with
    | some prims =>
        if prims.length > 0 then compatPhase prims pp.2 ([], []) else .ok ([], [])
    | none => .ok ([], [])
  match compatStep with
  | .error e => .error e
  | .ok (compatErrs, compatWarns) =>
    let types := pp.2.map (·.type)
    let errors := pp.1 ++ compatErrs ++ pairErrors types
    let warnings := compatWarns ++ stackingWarnings types
    .ok { valid := errors.isEmpty, errors := errors,
          warnings := warnings, parsed := pp.2 }

/-- `Array.prototype.join(sep)` on a list of strings. -/
def joinSep (sep : String) : List String → String
  | [] => ""
  | [x] => x
  | x :: xs => x ++ sep ++ joinSep sep xs

/-- JavaScript `String.prototype.trim()`. -/
def jsTrim (s : String) : String :=
  ⟨((s.data.dropWhile jsWS).reverse.dropWhile jsWS).reverse⟩

/-- Lookup in an insertion-ordered association list (JavaScript `Map.get`). -/
def mapGet {α : Type} : List (String × α) → String → Option α
  | [], _ => none
  | (k', v) :: rest, k => if k' = k then some v else mapGet rest k

/-- Update in an insertion-ordered association list (JavaScript `Map.set`):
an existing key keeps its position, a new key is appended. -/
def mapSet {α : Type} : List (String × α) → String → α → List (String × α)
  | [], k, v => [(k, v)]
  | (k', v') :: rest, k, v =>
      if k' = k then (k', v) :: rest else (k', v') :: mapSet rest k v

/-- `SkillNode`: a node of the dependency graph. -/
structure SkillNode where
  name : String
  alias_ : Option String
  dependencies : List String
  dependents : List String
deriving DecidableEq, Repr

/-- The graph's node table (`Map<string, SkillNode>`). -/
abbrev NodeMap := List (String × SkillNode)

/-- `SkillReference` from `types.ts` (`from` and `alias` are `from_` and
`alias_` here, since both words are reserved in this environment). -/
structure SkillReference where
  name : String
  from_ : Option String := none
  version : Option String := none
  alias_ : Option String := none
  primitives : Option (List SkillPrimitive) := none
  modifiers : Option (List Modifier) := none
deriving DecidableEq, Repr

/-- `DataFlowMapping` from `types.ts` (`from`/`to` are `from_`/`to_` here). -/
structure DataFlowMapping where
  from_ : String
  to_ : String
  mapping : Option (List (String × String)) := none
deriving DecidableEq, Repr

/-- `ComboConstraints` from `types.ts`. -/
structure ComboConstraints where
  ordering : Option (List String) := none
  assumptions : Option (List String) := none
  data_flow : Option (List DataFlowMapping) := none
deriving DecidableEq, Repr

/-- `ComboMetadata` from `types.ts` (inert passthrough). -/
structure ComboMetadata where
  author : Option String := none
  tags : Option (List String) := none
  license : Option String := none
deriving DecidableEq, Repr

/-- `ComboSkillDefinition` from `types.ts`. -/
structure ComboSkillDefinition where
  name : String
  description : String
  version : Option String := none
  primitives : Option (List SkillPrimitive) := none
  modifiers : Option (List Modifier) := none
  skills : List SkillReference
  intent : String
  constraints : Option ComboConstraints := none
  metadata : Option ComboMetadata := none
deriving DecidableEq, Repr

/-- Node initialization of `resolveDependencyGraph`: one node per declared
component, keyed by `alias ?? name`; a duplicate key overwrites in place. -/
def buildNodes (skills : List SkillReference) : NodeMap :=
  skills.foldl
    (fun m sk => mapSet m (sk.alias_.getD sk.name)
      { name := sk.name, alias_ := sk.alias_, dependencies := [], dependents := [] })
    []

/-- `Array.prototype.push` guarded by an `includes` check. -/
def pushIfAbsent (l : List String) (x : String) : List String :=
  if x ∈ l then l else l ++ [x]

/-- Add one ordering edge `f -> t`: `f` joins `t`'s dependencies and `t`
joins `f`'s dependents, each deduplicated; if either endpoint is missing
the pair is skipped (the source logs a console warning). -/
def addEdge (m : NodeMap) (f t : String) : NodeMap :=
  match mapGet m f, mapGet m t with
  | some _, some _ =>
      let m1 := match mapGet m t with
        | some tn => mapSet m t { tn with dependencies := pushIfAbsent tn.dependencies f }
        | none => m
      match mapGet m1 f with
      | some fn => mapSet m1 f { fn with dependents := pushIfAbsent fn.dependents t }
      | none => m1
  | _, _ => m

/-- Add the edges of each consecutive pair of a constraint chain. -/
def addChain : List String → NodeMap → NodeMap
  | a :: b :: rest, m => addChain (b :: rest) (addEdge m a b)
  | _, m => m

/-- Split a character list at each occurrence of the arrow token `->`
(the JavaScript split on `/\s*->\s*/` followed by `trim` of every part is
modelled as a split on `->` followed by `trim`, which yields the same
trimmed parts). -/
def splitArrowAux : List Char → List Char → List (List Char)
  | [], cur => [cur.reverse]
  | '-' :: '>' :: rest, cur => cur.reverse :: splitArrowAux rest []
  | c :: rest, cur => splitArrowAux rest (c :: cur)

/-- Split a constraint string on the arrow token. -/
def splitArrow (s : String) : List String :=
  (splitArrowAux s.data []).map String.mk

/-- The trimmed identity keys mentioned by an ordering constraint string. -/
def constraintParts (s : String) : List String :=
  (splitArrow s).map jsTrim

/-- `parseOrderingConstraint`: a chain of fewer than two parts is skipped
with a logged warning; otherwise each consecutive pair becomes an edge. -/
def parseOrderingConstraint (s : String) (m : NodeMap) : NodeMap :=
  let parts := constraintParts s
  if parts.length < 2 then m else addChain parts m

/-- The mutable state of the cycle-detection traversal: the `visited` and
`recursionStack` sets and the accumulated cycle records. -/
structure DfsState where
  visited : List String
  stack : List String
  cycles : List (List String)
deriving DecidableEq, Repr

/-- JavaScript `Set.add`. -/
def setAdd (l : List String) (k : String) : List String :=
  if k ∈ l then l else l ++ [k]

/-- JavaScript `Set.delete`. -/
def setDelete (l : List String) (k : String) : List String :=
  l.erase k

/-- The loop of `dfs` over the current node's dependents. `path1` is the
local path including the current key; `recur` is the recursive call at the
extended path. On a visited dependent that is on the recursion stack, the
cycle is recorded as `path.slice(path.indexOf(dependent))` plus the
dependent — when `indexOf` misses, `slice(-1)` keeps only the last path
element. A found cycle returns `true` immediately, skipping the
`recursionStack.delete` of every enclosing call. -/
def dfsList (recur : String → DfsState → DfsState × Bool) (key : String)
    (path1 : List String) : List String → DfsState → DfsState × Bool
  | [], st => ({ st with stack := setDelete st.stack key }, false)
  | d :: ds, st =>
    if d ∉ st.visited then
      match recur d st with
      | (st', true) => (st', true)
      | (st', false) => dfsList recur key path1 ds st'
    else if d ∈ st.stack then
      let cyc := (if d ∈ path1 then path1.drop (path1.indexOf d)
                  else path1.drop (path1.length - 1)) ++ [d]
      ({ st with cycles := st.cycles ++ [cyc] }, true)
    else dfsList recur key path1 ds st

/-- The recursive `dfs` of `detectCycles`, with a fuel argument for
termination (the fuel used by `detectCycles` always suffices, since the
recursion depth is bounded by the number of nodes). A missing node returns
`false` early. -/
def dfs (m : NodeMap) : Nat → String → List String → DfsState → DfsState × Bool
  | 0, _, _, st => (st, false)
  | f + 1, key, path, st =>
    let st1 : DfsState :=
      { st with visited := setAdd st.visited key, stack := setAdd st.stack key }
    let path1 := path ++ [key]
    match mapGet m key with
    | none => (st1, false)
    | some node => dfsList (fun d st => dfs m f d path1 st) key path1 node.dependents st1

/-- The driver loop of `detectCycles`: a fresh traversal from every
still-unvisited node, sharing `visited`, `recursionStack` and `cycles`. -/
def detectState (m : NodeMap) : DfsState :=
  (m.map Prod.fst).foldl
    (fun st k => if k ∈ st.visited then st else (dfs m (m.length + 1) k [] st).1)
    ⟨[], [], []⟩

/-- The result shape of `detectCycles`. -/
structure CycleResult where
  hasCycles : Bool
  cycles : Option (List (List String))
deriving DecidableEq, Repr

/-- `detectCycles`: run the traversal and package the found cycles
(`undefined` when none were found). -/
def detectCycles (m : NodeMap) : CycleResult :=
  let cs := (detectState m).cycles
  { hasCycles := !cs.isEmpty, cycles := if cs.isEmpty then none else some cs }

/-- Initial in-degree table of `topologicalSort`: one entry per node,
holding the size of its dependency list. -/
def inDeg0 (m : NodeMap) : List (String × Int) :=
  m.map fun p => (p.1, (p.2.dependencies.length : Int))

/-- Initial queue of `topologicalSort`: the keys of in-degree zero, in
table order. -/
def queue0 (m : NodeMap) : List String :=
  (inDeg0 m).filterMap fun p => if p.2 = 0 then some p.1 else none

/-- Process the dependents of a dequeued node: decrement each one's
in-degree (`?? 0` when absent) and enqueue those that reach exactly zero. -/
def processDeps : List String → List (String × Int) → List String →
    List (String × Int) × List String
  | [], deg, q => (deg, q)
  | d :: ds, deg, q =>
    let nd := (mapGet deg d).getD 0 - 1
    processDeps ds (mapSet deg d nd) (if nd = 0 then q ++ [d] else q)

/-- The while-loop of Kahn's algorithm, with a fuel argument for
termination (the fuel used by `topologicalSort` always suffices: every
iteration dequeues once, and the total number of enqueues is bounded by
the initial queue plus one per dependency edge). A dequeued key with no
node contributes itself and processes nothing. -/
def kahnLoop (m : NodeMap) : Nat → List (String × Int) → List String → List String
  | 0, _, _ => []
  | _ + 1, _, [] => []
  | f + 1, deg, c :: rest =>
    match mapGet m c with
    | none => c :: kahnLoop m f deg rest
    | some node =>
      let step := processDeps node.dependents deg rest
      c :: kahnLoop m f step.1 step.2

/-- Total dependency-list length over the node table (a fuel bound). -/
def sumDeps (m : NodeMap) : Nat :=
  (m.map fun p => p.2.dependencies.length).sum

/-- `topologicalSort`: Kahn's algorithm over the node table. -/
def topologicalSort (m : NodeMap) : List String :=
  kahnLoop m ((queue0 m).length + sumDeps m + 1) (inDeg0 m) (queue0 m)

/-- `DependencyGraph`: the result of graph resolution. -/
structure DependencyGraph where
  nodes : NodeMap
  executionOrder : List String
  hasCycles : Bool
  cycles : Option (List (List String))
deriving DecidableEq, Repr

/-- The declared ordering constraint list (`combo.constraints?.ordering`). -/
def orderingOf (combo : ComboSkillDefinition) : Option (List String) :=
  combo.constraints.bind (·.ordering)

/-- The node table built by `resolveDependencyGraph` before cycle
detection: initialized nodes plus the edges of every ordering constraint. -/
def graphNodes (combo : ComboSkillDefinition) : NodeMap :=
  match orderingOf combo with
  | some ord => ord.foldl (fun m c => parseOrderingConstraint c m) (buildNodes combo.skills)
  | none => buildNodes combo.skills

/-- `resolveDependencyGraph`: build nodes and edges, detect cycles, and
compute the execution order only when acyclic. -/
def resolveDependencyGraph (combo : ComboSkillDefinition) : DependencyGraph :=
  let nodes := graphNodes combo
  let cr := detectCycles nodes
  { nodes := nodes
    executionOrder := if cr.hasCycles then [] else topologicalSort nodes
    hasCycles := cr.hasCycles
    cycles := cr.cycles }

/-- The result shape of `validateConstraints` (it has no warnings list). -/
structure ConstraintValidationResult where
  valid : Bool
  errors : List String
deriving DecidableEq, Repr

/-- The set of referenceable names of `validateConstraints`: every declared
component's name and alias, with falsy values (absent or empty) dropped. -/
def skillNames (combo : ComboSkillDefinition) : List String :=
  combo.skills.flatMap fun s =>
    (if s.name ≠ "" then [s.name] else []) ++
    (match s.alias_ with
     | some a => if a ≠ "" then [a] else []
     | none => [])

/-- `validateConstraints`: re-run graph construction; report one error per
detected cycle (rendered with `->` separators) and one error per
constraint-mentioned key that is not a declared name or alias. -/
def validateConstraints (combo : ComboSkillDefinition) : ConstraintValidationResult :=
  let graph := resolveDependencyGraph combo
  let cycleErrs :=
    if graph.hasCycles then
      (graph.cycles.getD []).map fun cyc =>
        "Circular dependency detected: " ++ joinSep " -> " cyc
    else []
  let unknownErrs :=
    match orderingOf combo with
    | some ord =>
        ord.flatMap fun c =>
          (constraintParts c).filterMap fun nm =>
            if nm ∈ skillNames combo then none
            else some ("Unknown skill in ordering constraint: " ++ nm)
    | none => []
  let errors := cycleErrs ++ unknownErrs
  { valid := errors.isEmpty, errors := errors }

/-- `validateComboSkill`: required-field presence checks plus, when a
constraints object is present, the errors of `validateConstraints`.
Absent required strings are falsy, i.e. empty. -/
def validateComboSkill (combo : ComboSkillDefinition) : ConstraintValidationResult :=
  let errors :=
    (if combo.name = "" then ["Missing required field: name"] else []) ++
    (if combo.description = "" then ["Missing required field: description"] else []) ++
    (if combo.skills.isEmpty then ["Missing required field: skills (must have at least one)"] else []) ++
    (if combo.intent = "" then ["Missing required field: intent"] else []) ++
    (match combo.constraints with
     | some _ => (validateConstraints combo).errors
     | none => [])
  { valid := errors.isEmpty, errors := errors }

/-- `ResolvedSkill` from `types.ts`; `metadata` keeps only string entries
(the source stores a timestamp or an error message there). -/
structure ResolvedSkill where
  name : String
  from_ : String
  version : String
  description : String
  resolved : Bool
  metadata : List (String × String) := []
deriving DecidableEq, Repr

/-- The unresolved-placeholder entry that `resolveSkills` substitutes for
a rejected lookup. -/
def failedPlaceholder (ref : SkillReference) (e : String) : ResolvedSkill :=
  { name := ref.name
    from_ := ref.from_.getD "skills.sh"
    version := ref.version.getD "latest"
    description := "[Resolution failed] " ++ ref.name
    resolved := false
    metadata := [("error", e)] }

/-- `resolveSkills`: settle every lookup (the `Promise.allSettled` fan-out
preserves input order), keeping fulfilled values and substituting a
placeholder marked unresolved for each rejection. The per-item registry
lookup `resolveSkill` is the external collaborator, abstracted as the
`lookup` oracle. -/
def resolveSkills (lookup : SkillReference → Except String ResolvedSkill)
    (refs : List SkillReference) : List ResolvedSkill :=
  refs.map fun ref =>
    match lookup ref with
    | .ok v => v
    | .error e => failedPlaceholder ref e

/-- `ResolvedComboSkill`: the definition plus its resolved components. -/
structure ResolvedComboSkill extends ComboSkillDefinition where
  resolvedSkills : List ResolvedSkill
deriving DecidableEq, Repr

/-- The compilation metadata of a synthesized artifact (the wall-clock
`generatedAt` timestamp is omitted from the model). -/
structure CompiledMetadata where
  sourceCombo : String
  compilationMode : String
  skills : List String
deriving DecidableEq, Repr

/-- `CompiledSkill` from `types.ts`. -/
structure CompiledSkill where
  name : String
  version : String
  skillMd : String
  metadata : CompiledMetadata
deriving DecidableEq, Repr

/-- JSON rendering of a primitive configuration value (`JSON.stringify`;
NaN serializes as `null`; string escaping is not modelled). -/
def jsonOfPrim : JSPrim → String
  | .str s => "\"" ++ s ++ "\""
  | .num (.int n) => toString n
  | .num .nan => "null"
  | .bool true => "true"
  | .bool false => "false"

/-- JSON rendering of a configuration object. -/
def jsonOfConfig (cfg : Config) : String :=
  "\x7b" ++ joinSep "," (cfg.map fun p => "\"" ++ p.1 ++ "\":" ++ jsonOfPrim p.2) ++ "\x7d"

/-- `formatModifier` of the synthesis module. -/
def formatModifier : Modifier → String
  | .compact s => s
  | .structured fields =>
    match fields with
    | [] => "(empty modifier)"
    | (ty, cfg) :: _ => if cfg.isEmpty then ty else ty ++ ": " ++ jsonOfConfig cfg

/-- `combo.description.split('.')[0].toLowerCase()`. -/
def firstSentenceLower (s : String) : String :=
  String.mk ((s.data.takeWhile (· ≠ '.')).map Char.toLower)

/-- `generatePlaceholderSkill`: the deterministic placeholder body used
while no LLM provider is integrated. -/
def generatePlaceholderSkill (combo : ResolvedComboSkill) : String :=
  let skillsList := joinSep "\n" (combo.resolvedSkills.map fun s => "- " ++ s.name)
  let orderingSection :=
    match orderingOf combo.toComboSkillDefinition with
    | some ord =>
        "\n## Workflow\n\nThe skill executes in this order:\n" ++
        joinSep "\n" (ord.map fun o => "1. " ++ o) ++ "\n"
    | none => ""
  let modifiersSection :=
    match combo.modifiers with
    | some ms =>
        if ms.length > 0 then
          "\n## Behavior Modifiers\n\nThe following cross-cutting behaviors are applied to this skill:\n" ++
          joinSep "\n" (ms.map fun mm => "- " ++ formatModifier mm) ++ "\n"
        else ""
    | none => ""
  "# " ++ combo.name ++ "\n\n" ++ combo.description ++
  "\n\n## Overview\n\nThis is a composed skill that combines multiple atomic skills to accomplish\na higher-level goal.\n\n## Component Skills\n\n" ++
  skillsList ++ "\n\n" ++ orderingSection ++ "\n" ++ modifiersSection ++
  "\n\n## Intent\n\n" ++ combo.intent ++
  "\n\n## Usage\n\n```\nUse the " ++ combo.name ++ " skill to " ++
  firstSentenceLower combo.description ++
  ".\n```\n\n## Limitations\n\n- This skill was generated by combo-skills\n- It relies on the availability of all component skills\n- Behavior may vary based on compilation options\n\n---\n\n*Generated by combo-skills*\n"

/-- The artifact record built by `compileWithLLM` on success. -/
def buildCompiled (combo : ResolvedComboSkill) : CompiledSkill :=
  { name := combo.name
    version := combo.version.getD "0.1.0"
    skillMd := generatePlaceholderSkill combo
    metadata :=
      { sourceCombo := combo.name
        compilationMode := "llm-placeholder"
        skills := combo.resolvedSkills.map (·.name) } }

/-- `compileWithLLM` with default options (`validateModifiers: true`):
when composition-wide modifiers are present, run the Modifier Resolver
first and throw on a hard failure; otherwise synthesize the placeholder
artifact. The prompt string built for the eventual LLM call is used only
for logging in placeholder mode and is not modelled. -/
def compileWithLLM (combo : ResolvedComboSkill) : Except String CompiledSkill :=
  match combo.modifiers with
  | some ms =>
    if ms.length > 0 then
      match validateModifiers ms combo.primitives with
      | .error e => .error e
      | .ok v =>
        if !v.valid then
          .error ("Modifier validation failed:\n" ++ joinSep "\n" v.errors)
        else .ok (buildCompiled combo)
    else .ok (buildCompiled combo)
  | none => .ok (buildCompiled combo)

/-- `CompilationResult` from `types.ts`. -/
structure CompilationResult where
  success : Bool
  skill : Option CompiledSkill := none
  errors : Option (List String) := none
  warnings : Option (List String) := none
deriving DecidableEq, Repr

/-- `compile` with default options (validation on, no output directory):
structural validation, graph resolution, component resolution (with the
non-terminal unresolved warning), then synthesis. A throw inside
synthesis — including the modifier-validation throw — propagates to the
caller as a rejection (`Except.error`). -/
def compile (lookup : SkillReference → Except String ResolvedSkill)
    (combo : ComboSkillDefinition) : Except String CompilationResult :=
  let validation := validateComboSkill combo
  if !validation.valid then
    .ok { success := false, errors := some validation.errors }
  else
    let graph := resolveDependencyGraph combo
    if graph.hasCycles then
      .ok { success := false
            errors := some ["Circular dependencies detected: " ++
              joinSep "; " ((graph.cycles.getD []).map (joinSep " -> "))] }
    else
      let resolvedSkills := resolveSkills lookup combo.skills
      let failed := resolvedSkills.filter fun s => !s.resolved
      let warnings :=
        if failed.length > 0 then
          ["Some skills could not be resolved: " ++ joinSep ", " (failed.map (·.name))]
        else []
      match compileWithLLM { toComboSkillDefinition := combo, resolvedSkills := resolvedSkills } with
      | .error e => .error e
      | .ok compiled =>
        .ok { success := true, skill := some compiled
              warnings := if warnings.length > 0 then some warnings else none }

/-- Observation: the success flag of a settled compilation, when it did
not reject. -/
def successOf (r : Except String CompilationResult) : Option Bool :=
  match r with
  | .ok res => some res.success
  | .error _ => none

/-- Observation: the warning list of a settled compilation. -/
def warningsOf (r : Except String CompilationResult) : Option (Option (List String)) :=
  match r with
  | .ok res => some res.warnings
  | .error _ => none

/-- Observation: the error list of a settled compilation. -/
def errorsOf (r : Except String CompilationResult) : Option (Option (List String)) :=
  match r with
  | .ok res => some res.errors
  | .error _ => none

/-- Every modifier declaration of a composition: the composition-wide list
followed by each component's own list. -/
def allModDecls (combo : ComboSkillDefinition) : List Modifier :=
  combo.modifiers.getD [] ++ combo.skills.flatMap fun s => s.modifiers.getD []

/-- The key list of an association table, in insertion order. -/
def keysOf {α : Type} (m : List (String × α)) : List String :=
  m.map Prod.fst

/-- The successor (dependents) edge relation of a node table. -/
def edgeB (m : NodeMap) (u v : String) : Bool :=
  match mapGet m u with
  | some n => v ∈ n.dependents
  | none => false

/-- Whether every adjacent pair of a key list is a successor edge. -/
def walkB (m : NodeMap) : List String → Bool
  | [] => true
  | [_] => true
  | a :: b :: rest => edgeB m a b && walkB m (b :: rest)

/-- Whether a key list is a closed walk revisiting its first node:
a directed cycle of the graph. -/
def isCycleList (m : NodeMap) (l : List String) : Bool :=
  walkB m l && decide (2 ≤ l.length) && decide (l.head? = l.getLast?)

/-- The node table contains a directed cycle. -/
def HasCycle (m : NodeMap) : Prop :=
  ∃ l, isCycleList m l = true

/-- Proof-only instrumentation of `DfsState` that additionally records the
order in which traversal calls return cleanly; its projection to the
source state is proved to commute with the traversal. -/
structure DfsStateI where
  visited : List String
  stack : List String
  cycles : List (List String)
  exited : List String

/-- Projection of the instrumented state onto the source state. -/
def projI (st : DfsStateI) : DfsState :=
  ⟨st.visited, st.stack, st.cycles⟩

/-- Instrumented version of `dfsList` (identical control flow; a clean
exit records the key in `exited`). -/
def dfsListI (recur : String → DfsStateI → DfsStateI × Bool) (key : String)
    (path1 : List String) : List String → DfsStateI → DfsStateI × Bool
  | [], st =>
      ({ st with stack := setDelete st.stack key, exited := st.exited ++ [key] }, false)
  | d :: ds, st =>
    if d ∉ st.visited then
      match recur d st with
      | (st', true) => (st', true)
      | (st', false) => dfsListI recur key path1 ds st'
    else if d ∈ st.stack then
      let cyc := (if d ∈ path1 then path1.drop (path1.indexOf d)
                  else path1.drop (path1.length - 1)) ++ [d]
      ({ st with cycles := st.cycles ++ [cyc] }, true)
    else dfsListI recur key path1 ds st

/-- Instrumented version of `dfs`. -/
def dfsI (m : NodeMap) : Nat → String → List String → DfsStateI → DfsStateI × Bool
  | 0, _, _, st => (st, false)
  | f + 1, key, path, st =>
    let st1 : DfsStateI :=
      { st with visited := setAdd st.visited key, stack := setAdd st.stack key }
    let path1 := path ++ [key]
    match mapGet m key with
    | none => (st1, false)
    | some node => dfsListI (fun d st => dfsI m f d path1 st) key path1 node.dependents st1

/-- Instrumented version of `detectState`. -/
def detectStateI (m : NodeMap) : DfsStateI :=
  (m.map Prod.fst).foldl
    (fun st k => if k ∈ st.visited then st else (dfsI m (m.length + 1) k [] st).1)
    ⟨[], [], [], []⟩

/-- The nonnegative part of the in-degree table, summed: the decreasing
measure of the Kahn loop. -/
def degSum (deg : List (String × Int)) : Nat :=
  (deg.map fun p => p.2.toNat).sum

/-- The declarations of a modifier list that parse successfully, in order. -/
def okParses (ms : List Modifier) : List ParsedModifier :=
  ms.filterMap fun m => (parseModifier m).toOption

/-- The parse-failure messages of a modifier list, in order. -/
def parseFails (ms : List Modifier) : List String :=
  ms.filterMap fun m =>
    match parseModifier m with
    | .error e => some e
    | .ok _ => none

/-- Test fixture: a lookup oracle that always resolves, mirroring the
placeholder `resolveSkill` of the source. -/
def okLookup : SkillReference → Except String ResolvedSkill := fun ref =>
  .ok { name := ref.name
        from_ := ref.from_.getD "skills.sh"
        version := ref.version.getD "latest"
        description := "Atomic skill: " ++ ref.name
        resolved := true }

/-- Test fixture: a lookup oracle that rejects exactly the component
named `b`. -/
def lookupF : SkillReference → Except String ResolvedSkill := fun ref =>
  if ref.name = "b" then .error "boom" else okLookup ref

/-- Test fixture: the chain composition of Scenario A. -/
def comboA : ComboSkillDefinition :=
  { name := "extract-table-from-web"
    description := "Extract structured table data."
    skills := [{ name := "fetch" }, { name := "parse" }, { name := "extract" }]
    intent := "compose"
    constraints := some { ordering := some ["fetch -> parse", "parse -> extract"] } }

/-- Test fixture: the two-cycle composition of Scenario B. -/
def comboB : ComboSkillDefinition :=
  { name := "cyclic"
    description := "A cyclic composition."
    skills := [{ name := "a" }, { name := "b" }]
    intent := "compose"
    constraints := some { ordering := some ["a -> b", "b -> a"] } }

/-- Test fixture: a composition whose cycle traversal leaves a polluted
recursion stack before visiting `c`. -/
def comboStale : ComboSkillDefinition :=
  { name := "stale"
    description := "A cyclic composition with an extra edge into the cycle."
    skills := [{ name := "a" }, { name := "b" }, { name := "c" }]
    intent := "compose"
    constraints := some { ordering := some ["a -> b", "b -> a", "c -> a"] } }

/-- Test fixture: the unknown-key composition of Scenario E. -/
def comboE : ComboSkillDefinition :=
  { name := "unknown-ref"
    description := "References an undeclared component."
    skills := [{ name := "x" }]
    intent := "compose"
    constraints := some { ordering := some ["x -> y"] } }

/-- Test fixture: the three-component composition of Scenario F. -/
def comboF : ComboSkillDefinition :=
  { name := "partial"
    description := "One of three components fails to resolve."
    skills := [{ name := "a" }, { name := "b" }, { name := "c" }]
    intent := "compose" }

/-- Test fixture: a structurally valid composition whose composition-wide
modifier list violates a mutual-exclusion pair. -/
def comboBadMods : ComboSkillDefinition :=
  { name := "bad-mods"
    description := "Declares cache together with dry-run."
    skills := [{ name := "a" }]
    intent := "compose"
    modifiers := some [.compact "cache:5m", .compact "dry-run"] }

/-- Test fixture: the expected result of validating `["bogus"]`. -/
def rBogus : ModifierValidationResult :=
  { valid := false, errors := ["Invalid modifier format: bogus"], warnings := [], parsed := [] }

/-- Test fixture: the expected result of validating `[dry-run, cache:1m]`
(the mutual-exclusion error and the stacking warning both fire). -/
def rDryCache : ModifierValidationResult :=
  { valid := false,
    errors := ["Incompatible modifiers: \x27cache\x27 and \x27dry-run\x27 - Caching simulated results may cause confusion"],
    warnings := ["Stacking order: Dry-run before cache may cache simulated results"],
    parsed := [⟨"dry-run", [], .compact "dry-run"⟩,
               ⟨"cache", [("ttl", .str "1m")], .compact "cache:1m"⟩] }

/-- Test fixture: the expected result of validating the composition-wide
modifier list of `comboBadMods`. -/
def rBadMods : ModifierValidationResult :=
  { valid := false,
    errors := ["Incompatible modifiers: \x27cache\x27 and \x27dry-run\x27 - Caching simulated results may cause confusion"],
    warnings := [],
    parsed := [⟨"cache", [("ttl", .str "5m")], .compact "cache:5m"⟩,
               ⟨"dry-run", [], .compact "dry-run"⟩] }

/-- Well-formedness of a node table as built by the graph resolver: keys
are duplicate-free, edge lists mention only existing keys and are
duplicate-free, and the dependency/dependent lists are symmetric. -/
structure MapWF (m : NodeMap) : Prop where
  nodup : (keysOf m).Nodup
  depsIn : ∀ u nu, mapGet m u = some nu → ∀ v ∈ nu.dependencies, v ∈ keysOf m
  depsOut : ∀ u nu, mapGet m u = some nu → ∀ v ∈ nu.dependents, v ∈ keysOf m
  depsNodup : ∀ u nu, mapGet m u = some nu → nu.dependencies.Nodup
  depsOutNodup : ∀ u nu, mapGet m u = some nu → nu.dependents.Nodup
  symm : ∀ u nu v nv, mapGet m u = some nu → mapGet m v = some nv →
    (v ∈ nu.dependents ↔ u ∈ nv.dependencies)

/-- The number of elements of `l` not yet contained in `out` (the residual
in-degree of a dependency list, and the count of unvisited keys). -/
def remCount (l out : List String) : Nat :=
  (l.filter fun x => decide (x ∉ out)).length

/-- The loop invariant of Kahn\x27s algorithm over a well-formed node table
`m`: `deg` is the residual in-degree table, `q` the pending queue and `out`
the emitted prefix of the final order. -/
structure KahnInv (m : NodeMap) (deg : List (String × Int)) (q out : List String) : Prop where
  keys : keysOf deg = keysOf m
  degv : ∀ v nv, mapGet m v = some nv →
    mapGet deg v = some (remCount nv.dependencies out : Int)
  qsub : ∀ v ∈ q, v ∈ keysOf m
  osub : ∀ v ∈ out, v ∈ keysOf m
  qnd : q.Nodup
  ond : out.Nodup
  disj : ∀ v ∈ out, v ∉ q
  ready : ∀ v nv, mapGet m v = some nv →
    ((∀ d ∈ nv.dependencies, d ∈ out) ↔ (v ∈ out ∨ v ∈ q))
  ord : ∀ t ∈ out, ∀ nt, mapGet m t = some nt → ∀ f ∈ nt.dependencies,
    ∃ l1 l2, out = l1 ++ l2 ∧ f ∈ l1 ∧ t ∈ l2

/-- The invariant of a clean (cycle-free so far) instrumented traversal
state: every visited key is on the recursion stack or has exited, and every
successor edge out of an exited key leads to an earlier-exited key. -/
structure DetInv (m : NodeMap) (st : DfsStateI) : Prop where
  vse : ∀ k ∈ st.visited, k ∈ st.stack ∨ k ∈ st.exited
  sv : ∀ k ∈ st.stack, k ∈ st.visited
  ev : ∀ k ∈ st.exited, k ∈ st.visited
  enodup : st.exited.Nodup
  closed : ∀ u ∈ st.exited, ∀ v, edgeB m u v = true →
    v ∈ st.exited ∧ st.exited.indexOf v < st.exited.indexOf u

/-- Relation between the entry and result state of a clean (`false`)
instrumented `dfs` call on `k`: the invariant is kept, the recursion stack
is restored, no cycle is recorded, and `k` together with previously
unvisited keys is appended to the exit order. -/
def CleanPost (m : NodeMap) (k : String) (st st2 : DfsStateI) : Prop :=
  DetInv m st2 ∧ st2.stack = st.stack ∧ (∀ x ∈ st.visited, x ∈ st2.visited) ∧
  st2.cycles = st.cycles ∧ k ∈ st2.exited ∧
  ∃ ex, st2.exited = st.exited ++ ex ∧ ∀ x ∈ ex, x ∉ st.visited

/-- Relation between the entry and result state of a clean run of the
dependent loop of the instrumented `dfs` at `key`: as `CleanPost`, except
the loop pops `key` from the stack and appends it to the exit order last. -/
def LoopPost (m : NodeMap) (key : String) (st st2 : DfsStateI) : Prop :=
  DetInv m st2 ∧ st2.stack = setDelete st.stack key ∧
  (∀ x ∈ st.visited, x ∈ st2.visited) ∧ st2.cycles = st.cycles ∧
  ∃ ex, st2.exited = st.exited ++ ex ++ [key] ∧ ∀ x ∈ ex, x ∉ st.visited

/-- The descending iterate chain `[g (i+k), ..., g (i+1), g i]` used to
assemble a cycle witness from a repeating successor iteration. -/
def descendChain (g : Nat → String) (i : Nat) : Nat → List String
  | 0 => [g i]
  | k + 1 => g (i + k + 1) :: descendChain g i k

/-! ### Theorems -/

/-- `v ≠ ""` as a statement about its character list. -/
theorem str_ne_nil (v : String) (hv : v ≠ "") : v.data ≠ [] := by
  intro h; apply hv; cases v; simp_all

/-- Rebuilding a string from its character list. -/
theorem mk_data_eq (v : String) : String.mk v.data = v := by cases v; rfl

/-- A compact string `kind:value` of a known kind matches the prefix
regex at exactly that kind, for every value free of line terminators. -/
theorem matchKindValue_known (k : String) (hk : k ∈ MODIFIER_TYPES) (v : String)
    (hv : v ≠ "") (hdot : v.data.all jsDotChar = true) :
    matchKindValue (k ++ ":" ++ v) = some (k, some v) := by
  have hvd : v.data ≠ [] := str_ne_nil v hv
  have hmk : String.mk v.data = v := mk_data_eq v
  fin_cases hk <;>
    simp [matchKindValue, MODIFIER_TYPES, List.findSome?, prefixSplit,
      String.data_append, hvd, hdot, hmk]

/-- The parse phase accumulates exactly the failure messages and the
successful parses, in declaration order. -/
theorem parsePhase_eq (ms : List Modifier) :
    parsePhase ms = (parseFails ms, okParses ms) := by
  suffices h : ∀ es ps, ms.foldl
      (fun acc m => match parseModifier m with
        | .ok p => (acc.1, acc.2 ++ [p])
        | .error e => (acc.1 ++ [e], acc.2)) (es, ps) =
      (es ++ parseFails ms, ps ++ okParses ms) by
    simpa [parsePhase] using h [] []
  induction ms with
  | nil => intro es ps; simp [parseFails, okParses]
  | cons m rest ih =>
    intro es ps
    cases hm : parseModifier m with
    | ok p => simp [List.foldl, hm, ih, parseFails, okParses, Except.toOption]
    | error e => simp [List.foldl, hm, ih, parseFails, okParses, Except.toOption]

/-- With no capability categories supplied, `validateModifiers` never
throws and its result fields are the parse failures, the pair errors and
the adjacency-based stacking warnings. -/
theorem validateModifiers_none (ms : List Modifier) :
    validateModifiers ms none =
      .ok { valid := (parseFails ms ++ pairErrors ((okParses ms).map (·.type))).isEmpty
            errors := parseFails ms ++ pairErrors ((okParses ms).map (·.type))
            warnings := stackingWarnings ((okParses ms).map (·.type))
            parsed := okParses ms } := by
  simp [validateModifiers, parsePhase_eq]

/-- Structural facts about any non-throwing `validateModifiers` run:
validity mirrors error emptiness, the parsed list is exactly the list of
successful parses, and the parse-failure messages head the error list. -/
theorem validateModifiers_shape (ms : List Modifier)
    (prims : Option (List SkillPrimitive)) (r : ModifierValidationResult)
    (h : validateModifiers ms prims = .ok r) :
    r.valid = r.errors.isEmpty ∧ r.parsed = okParses ms ∧
    ∃ rest, r.errors = parseFails ms ++ rest := by
  cases prims with
  | none =>
    rw [validateModifiers_none] at h
    cases h
    exact ⟨rfl, rfl, pairErrors ((okParses ms).map (·.type)), rfl⟩
  | some l =>
    by_cases hl : l.length > 0
    · cases hc : compatPhase l (okParses ms) ([], []) with
      | error e =>
        simp [validateModifiers, parsePhase_eq, hl, hc] at h
      | ok pair =>
        simp [validateModifiers, parsePhase_eq, hl, hc] at h
        subst h
        exact ⟨rfl, rfl, pair.1 ++ pairErrors ((okParses ms).map (·.type)), rfl⟩
    · simp [validateModifiers, parsePhase_eq, hl] at h
      subst h
      exact ⟨rfl, rfl, pairErrors ((okParses ms).map (·.type)), rfl⟩

/-- C4: the cycle records returned by `resolveDependencyGraph` are not
always closed walks. On `comboStale`, the traversal of the genuine cycle
`a -> b -> a` returns early without popping the recursion stack, so the
later traversal from `c` records the entry `[c, a]`, whose endpoints
differ — not a closed walk — even though its one adjacent pair is an edge. -/
theorem C4_nonclosed_cycle_entry :
    (resolveDependencyGraph comboStale).cycles = some [["a", "b", "a"], ["c", "a"]] ∧
    isCycleList (resolveDependencyGraph comboStale).nodes ["a", "b", "a"] = true ∧
    isCycleList (resolveDependencyGraph comboStale).nodes ["c", "a"] = false ∧
    walkB (resolveDependencyGraph comboStale).nodes ["c", "a"] = true ∧
    List.head? ["c", "a"] = some "c" ∧ List.getLast? ["c", "a"] = some "a" := by
  refine ⟨by decide, by decide, by decide, by decide, rfl, rfl⟩

/-- C6: `validateModifiers` is not exception-free for every declaration
shape. An expanded single-key mapping whose key is not one of the ten
kinds parses successfully (the key is cast unchecked), and the
compatibility lookup against a non-empty category set then throws a
`TypeError` by indexing an undefined matrix row — while the same
declaration with no categories yields a structured result. -/
theorem C6_unknown_kind_typeerror :
    validateModifiers [.structured [("bogus", [])]] (some [.read]) =
      .error "TypeError: Cannot read properties of undefined (reading \x27read\x27)" ∧
    validateModifiers [.structured [("bogus", [])]] none =
      .ok { valid := true, errors := [], warnings := [],
            parsed := [⟨"bogus", [], .structured [("bogus", [])]⟩] } := by
  exact ⟨by decide, by decide⟩

/-- C7: a declaration that fails to parse contributes its message as a
hard error without aborting the batch — the remaining declarations are
still parsed — and validity is false exactly when the error list is
non-empty, warnings never contributing. The closed instance shows a
failing declaration between two succeeding ones contributing exactly one
error entry. -/
theorem C7_parse_isolation :
    (∀ ms prims r, validateModifiers ms prims = .ok r →
      ((r.valid = true ↔ r.errors = []) ∧ r.parsed = okParses ms ∧
        ∃ rest, r.errors = parseFails ms ++ rest)) ∧
    validateModifiers [.compact "retry:3", .compact "bogus", .compact "cache:5m"] none =
      .ok { valid := false,
            errors := ["Invalid modifier format: bogus"],
            warnings := [],
            parsed := [⟨"retry", [("attempts", .num (.int 3))], .compact "retry:3"⟩,
                       ⟨"cache", [("ttl", .str "5m")], .compact "cache:5m"⟩] } := by
  constructor
  · intro ms prims r h
    obtain ⟨hv, hp, rest, he⟩ := validateModifiers_shape ms prims r h
    refine ⟨?_, hp, rest, he⟩
    rw [hv]
    simp
  · decide

/-- Closed instance of the universal part of `C7_parse_isolation`. -/
theorem C7_parse_isolation_witness :
    (rBogus.valid = true ↔ rBogus.errors = []) ∧
    rBogus.parsed = okParses [.compact "bogus"] ∧
    ∃ rest, rBogus.errors = parseFails [.compact "bogus"] ++ rest :=
  C7_parse_isolation.1 [.compact "bogus"] none rBogus (by decide)

/-- C8: Scenario D — `[cache:5m, retry:3]` validates with no errors and
exactly one stacking-order warning; in general (with no categories, so no
compatibility warnings) the warning list is exactly the adjacency-based
stacking scan of the parsed list, and the non-adjacent ordering
`[cache:5m, timeout:30s, retry:3]` produces no warning. -/
theorem C8_stacking_adjacent :
    validateModifiers [.compact "cache:5m", .compact "retry:3"] none =
      .ok { valid := true,
            errors := [],
            warnings := ["Stacking order: Cache before retry may cache failures; prefer retry → cache"],
            parsed := [⟨"cache", [("ttl", .str "5m")], .compact "cache:5m"⟩,
                       ⟨"retry", [("attempts", .num (.int 3))], .compact "retry:3"⟩] } ∧
    (∀ ms r, validateModifiers ms none = .ok r →
      r.warnings = stackingWarnings (r.parsed.map (·.type))) ∧
    validateModifiers [.compact "cache:5m", .compact "timeout:30s", .compact "retry:3"] none =
      .ok { valid := true,
            errors := [],
            warnings := [],
            parsed := [⟨"cache", [("ttl", .str "5m")], .compact "cache:5m"⟩,
                       ⟨"timeout", [("duration", .str "30s")], .compact "timeout:30s"⟩,
                       ⟨"retry", [("attempts", .num (.int 3))], .compact "retry:3"⟩] } := by
  refine ⟨by decide, ?_, by decide⟩
  intro ms r h
  rw [validateModifiers_none] at h
  cases h
  rfl

/-- Closed instance of the universal part of `C8_stacking_adjacent`. -/
theorem C8_stacking_adjacent_witness :
    rDryCache.warnings = stackingWarnings (rDryCache.parsed.map (·.type)) :=
  C8_stacking_adjacent.2.1 [.compact "dry-run", .compact "cache:1m"] rDryCache (by decide)

/-- C10: a compact string of any known kind with any line-terminator-free
value parses successfully — value content is never validated — and for
the integer-valued kinds a value on which `parseInt` yields NaN produces
a configuration holding NaN in its numeric field. -/
theorem C10_value_not_validated :
    (∀ k ∈ MODIFIER_TYPES, ∀ v : String, v ≠ "" → v.data.all jsDotChar = true →
      parseModifier (.compact (k ++ ":" ++ v)) =
        .ok ⟨k, parsePrefixValue k (some v), .compact (k ++ ":" ++ v)⟩) ∧
    (∀ v : String, v ≠ "" → v.data.all jsDotChar = true → parseIntJS v = .nan →
      parseModifier (.compact ("retry:" ++ v)) =
        .ok ⟨"retry", [("attempts", .num .nan)], .compact ("retry:" ++ v)⟩ ∧
      parseModifier (.compact ("batch:" ++ v)) =
        .ok ⟨"batch", [("size", .num .nan)], .compact ("batch:" ++ v)⟩ ∧
      parseModifier (.compact ("parallel:" ++ v)) =
        .ok ⟨"parallel", [("concurrency", .num .nan)], .compact ("parallel:" ++ v)⟩) ∧
    parseModifier (.compact "retry:abc") =
      .ok ⟨"retry", [("attempts", .num .nan)], .compact "retry:abc"⟩ ∧
    parseIntJS "abc" = .nan := by
  refine ⟨?_, ?_, by decide, by decide⟩
  · intro k hk v hv hdot
    simp [parseModifier, parsePrefixModifier, matchKindValue_known k hk v hv hdot]
  · intro v hv hdot hnan
    have h1 : matchKindValue ("retry:" ++ v) = some ("retry", some v) :=
      matchKindValue_known "retry" (by decide) v hv hdot
    have h2 : matchKindValue ("batch:" ++ v) = some ("batch", some v) :=
      matchKindValue_known "batch" (by decide) v hv hdot
    have h3 : matchKindValue ("parallel:" ++ v) = some ("parallel", some v) :=
      matchKindValue_known "parallel" (by decide) v hv hdot
    refine ⟨?_, ?_, ?_⟩
    · simp [parseModifier, parsePrefixModifier, h1, parsePrefixValue, hv, hnan]
    · simp [parseModifier, parsePrefixModifier, h2, parsePrefixValue, hv, hnan]
    · simp [parseModifier, parsePrefixModifier, h3, parsePrefixValue, hv, hnan]

/-- Closed instance of the universal parts of `C10_value_not_validated`. -/
theorem C10_value_not_validated_witness :
    parseModifier (.compact ("cache" ++ ":" ++ "xyz")) =
      .ok ⟨"cache", parsePrefixValue "cache" (some "xyz"), .compact ("cache" ++ ":" ++ "xyz")⟩ ∧
    parseModifier (.compact ("batch:" ++ "xyz")) =
      .ok ⟨"batch", [("size", .num .nan)], .compact ("batch:" ++ "xyz")⟩ :=
  ⟨C10_value_not_validated.1 "cache" (by decide) "xyz" (by decide) (by decide),
   (C10_value_not_validated.2.1 "xyz" (by decide) (by decide) (by decide)).2.1⟩

/-- C1 fails as stated: on `comboBadMods` — which passes structural
validation and graph resolution and declares hard-erroring
composition-wide modifiers — `compile` does not return a structured
result with `success = false`; the modifier-validation failure is thrown
from inside the synthesis stage and propagates as a rejection. -/
theorem C1_counterexample :
    (validateComboSkill comboBadMods).valid = true ∧
    (resolveDependencyGraph comboBadMods).hasCycles = false ∧
    allModDecls comboBadMods = [.compact "cache:5m", .compact "dry-run"] ∧
    validateModifiers (allModDecls comboBadMods) comboBadMods.primitives = .ok rBadMods ∧
    rBadMods.valid = false ∧
    compile okLookup comboBadMods =
      .error "Modifier validation failed:\nIncompatible modifiers: \x27cache\x27 and \x27dry-run\x27 - Caching simulated results may cause confusion" ∧
    successOf (compile okLookup comboBadMods) = none := by
  decide

/-- C1 as amended: when the composition-wide modifier list is non-empty,
its validation runs inside the synthesis stage before any artifact is
produced, and a hard failure aborts the pipeline by throwing the joined
error messages (the compilation rejects instead of returning
`success = false`); when no composition-wide modifiers are declared the
pipeline always reaches a successful structured result, i.e.
per-component modifier declarations never trigger this validation. -/
theorem C1_modifier_throw :
    (∀ (lookup : SkillReference → Except String ResolvedSkill)
       (combo : ComboSkillDefinition) (ms : List Modifier) (r : ModifierValidationResult),
      (validateComboSkill combo).valid = true →
      (resolveDependencyGraph combo).hasCycles = false →
      combo.modifiers = some ms → 0 < ms.length →
      validateModifiers ms combo.primitives = .ok r → r.valid = false →
      compile lookup combo =
        .error ("Modifier validation failed:\n" ++ joinSep "\n" r.errors)) ∧
    (∀ (lookup : SkillReference → Except String ResolvedSkill)
       (combo : ComboSkillDefinition),
      (validateComboSkill combo).valid = true →
      (resolveDependencyGraph combo).hasCycles = false →
      combo.modifiers = none →
      successOf (compile lookup combo) = some true) := by
  constructor
  · intro lookup combo ms r hval hcyc hm hlen hvm hbad
    simp [compile, hval, hcyc, compileWithLLM, hm, hlen, hvm, hbad]
  · intro lookup combo hval hcyc hm
    simp [compile, hval, hcyc, compileWithLLM, hm, successOf]

/-- Closed instance of `C1_modifier_throw`. -/
theorem C1_modifier_throw_witness :
    compile okLookup comboBadMods =
      .error ("Modifier validation failed:\n" ++ joinSep "\n" rBadMods.errors) :=
  C1_modifier_throw.1 okLookup comboBadMods [.compact "cache:5m", .compact "dry-run"] rBadMods
    (by decide) (by decide) (by decide) (by decide) (by decide) (by decide)

/-- Helper: whenever `resolveDependencyGraph` reports a cycle list, the
cycle flag is set and the list is recovered by `getD`. -/
theorem resolveDependencyGraph_cycles_some (combo : ComboSkillDefinition)
    (cs : List (List String))
    (h : (resolveDependencyGraph combo).cycles = some cs) :
    (resolveDependencyGraph combo).hasCycles = true ∧
    (resolveDependencyGraph combo).cycles.getD [] = cs := by
  by_cases he : (detectState (graphNodes combo)).cycles.isEmpty
  · simp [resolveDependencyGraph, detectCycles, he] at h
  · simp [resolveDependencyGraph, detectCycles, he] at h ⊢
    simp [h]

/-- C5: `validateConstraints` is valid exactly when its error list is
empty (its result carries no warning list at all); every key mentioned by
an ordering constraint that is neither a declared name nor a declared
alias contributes an unknown-key error; every reported cycle contributes
one error rendered with `->` separators; and on Scenario E the result is
exactly one error naming the unknown key. -/
theorem C5_validateConstraints_spec :
    (∀ combo, ((validateConstraints combo).valid = true ↔
      (validateConstraints combo).errors = [])) ∧
    (∀ combo ord c nm, orderingOf combo = some ord → c ∈ ord →
      nm ∈ constraintParts c → nm ∉ skillNames combo →
      ("Unknown skill in ordering constraint: " ++ nm) ∈ (validateConstraints combo).errors) ∧
    (∀ combo cs cyc, (resolveDependencyGraph combo).cycles = some cs → cyc ∈ cs →
      ("Circular dependency detected: " ++ joinSep " -> " cyc) ∈ (validateConstraints combo).errors) ∧
    validateConstraints comboE =
      { valid := false, errors := ["Unknown skill in ordering constraint: y"] } := by
  refine ⟨?_, ?_, ?_, by decide⟩
  · intro combo
    have h : (validateConstraints combo).valid = (validateConstraints combo).errors.isEmpty := rfl
    rw [h]
    simp
  · intro combo ord c nm hord hc hnm hnot
    simp only [validateConstraints, hord]
    apply List.mem_append_right
    simp only [List.mem_flatMap, List.mem_filterMap]
    exact ⟨c, hc, nm, hnm, by simp [hnot]⟩
  · intro combo cs cyc hcs hcyc
    obtain ⟨hflag, hgetD⟩ := resolveDependencyGraph_cycles_some combo cs hcs
    simp only [validateConstraints, hflag, if_true]
    apply List.mem_append_left
    rw [hgetD]
    exact List.mem_map_of_mem _ hcyc

/-- Closed instance of `C5_validateConstraints_spec`. -/
theorem C5_validateConstraints_spec_witness :
    ("Unknown skill in ordering constraint: y") ∈ (validateConstraints comboE).errors ∧
    ("Circular dependency detected: " ++ joinSep " -> " ["a", "b", "a"]) ∈
      (validateConstraints comboB).errors :=
  ⟨C5_validateConstraints_spec.2.1 comboE ["x -> y"] "x -> y" "y"
     (by decide) (by decide) (by decide) (by decide),
   C5_validateConstraints_spec.2.2.1 comboB [["a", "b", "a"]] ["a", "b", "a"]
     (by decide) (by decide)⟩

/-- Helper: a batch whose lookups all succeed with resolved metadata
contains no unresolved entries. -/
theorem resolveSkills_all_ok (lookup : SkillReference → Except String ResolvedSkill)
    (l : List SkillReference)
    (h : ∀ ref ∈ l, ∃ v, lookup ref = .ok v ∧ v.resolved = true) :
    (resolveSkills lookup l).filter (fun s => !s.resolved) = [] := by
  induction l with
  | nil => rfl
  | cons a t ih =>
    obtain ⟨v, hv, hr⟩ := h a (by simp)
    have ih2 := ih fun ref hm => h ref (by simp [hm])
    simp only [resolveSkills, List.map_cons, List.filter_cons, hv, hr] at ih2 ⊢
    simpa using ih2

/-- C9: with one rejected lookup among otherwise successful ones, the
resolved list keeps its length and order, carries the unresolved
placeholder at the rejected position, and compilation still succeeds with
exactly one warning naming the failed component. -/
theorem C9_partial_resolution (lookup : SkillReference → Except String ResolvedSkill)
    (combo : ComboSkillDefinition) (l1 l2 : List SkillReference)
    (refI : SkillReference) (e : String)
    (hsplit : combo.skills = l1 ++ refI :: l2)
    (hfail : lookup refI = .error e)
    (hok : ∀ ref, ref ∈ l1 ∨ ref ∈ l2 → ∃ v, lookup ref = .ok v ∧ v.resolved = true)
    (hval : (validateComboSkill combo).valid = true)
    (hcyc : (resolveDependencyGraph combo).hasCycles = false)
    (hmods : combo.modifiers = none) :
    (resolveSkills lookup combo.skills).length = combo.skills.length ∧
    (resolveSkills lookup combo.skills)[l1.length]? = some (failedPlaceholder refI e) ∧
    successOf (compile lookup combo) = some true ∧
    warningsOf (compile lookup combo) =
      some (some ["Some skills could not be resolved: " ++ refI.name]) := by
  have hfilter : (resolveSkills lookup combo.skills).filter (fun s => !s.resolved) =
      [failedPlaceholder refI e] := by
    have h1 := resolveSkills_all_ok lookup l1 fun ref hm => hok ref (Or.inl hm)
    have h2 := resolveSkills_all_ok lookup l2 fun ref hm => hok ref (Or.inr hm)
    simp only [resolveSkills, failedPlaceholder] at h1 h2
    rw [hsplit]
    simp only [resolveSkills, failedPlaceholder, List.map_append, List.map_cons,
      List.filter_append, List.filter_cons, hfail]
    simp [h1, h2]
  refine ⟨by simp [resolveSkills], ?_, ?_, ?_⟩
  · rw [hsplit]
    simp only [resolveSkills, List.map_append, List.map_cons]
    rw [List.getElem?_append_right (by simp)]
    simp [hfail]
  · simp [compile, hval, hcyc, compileWithLLM, hmods, successOf, hfilter]
  · simp [compile, hval, hcyc, compileWithLLM, hmods, warningsOf, hfilter, joinSep,
      failedPlaceholder]

/-- Closed instance of `C9_partial_resolution` on Scenario F. -/
theorem C9_partial_resolution_witness :
    (resolveSkills lookupF comboF.skills).length = comboF.skills.length ∧
    (resolveSkills lookupF comboF.skills)[1]? =
      some (failedPlaceholder { name := "b" } "boom") ∧
    successOf (compile lookupF comboF) = some true ∧
    warningsOf (compile lookupF comboF) =
      some (some ["Some skills could not be resolved: " ++ ({ name := "b" } : SkillReference).name]) := by
  have h := C9_partial_resolution lookupF comboF [{ name := "a" }] [{ name := "c" }]
    { name := "b" } "boom" (by decide) (by decide)
    (by
      intro ref hm
      rcases hm with hm | hm
      all_goals
        simp only [List.mem_singleton] at hm
        subst hm
        exact ⟨_, rfl, rfl⟩)
    (by decide) (by decide) (by decide)
  simpa using h

/-! Base lemmas about the association-map operations. -/

theorem keysOf_cons {α : Type} (p : String × α) (l : List (String × α)) :
    keysOf (p :: l) = p.1 :: keysOf l := rfl

theorem mapSet_cons_ne {α : Type} (p : String × α) (l : List (String × α))
    (k : String) (v : α) (h : p.1 ≠ k) :
    mapSet (p :: l) k v = (p.1, p.2) :: mapSet l k v := by
  simp [mapSet, h]

theorem mapSet_cons_eq {α : Type} (p : String × α) (l : List (String × α))
    (k : String) (v : α) (h : p.1 = k) :
    mapSet (p :: l) k v = (p.1, v) :: l := by
  simp [mapSet, h]

theorem mapGet_mapSet_self {α : Type} (m : List (String × α)) (k : String) (v : α) :
    mapGet (mapSet m k v) k = some v := by
  induction m with
  | nil => simp [mapSet, mapGet]
  | cons p rest ih =>
    by_cases h : p.1 = k
    · rw [mapSet_cons_eq p rest k v h]
      simp [mapGet, h]
    · rw [mapSet_cons_ne p rest k v h]
      simp [mapGet, h, ih]

theorem mapGet_mapSet_ne {α : Type} (m : List (String × α)) (k k' : String) (v : α)
    (h : k' ≠ k) : mapGet (mapSet m k v) k' = mapGet m k' := by
  induction m with
  | nil => simp [mapSet, mapGet, Ne.symm h]
  | cons p rest ih =>
    by_cases hp : p.1 = k
    · rw [mapSet_cons_eq p rest k v hp]
      have hp' : p.1 ≠ k' := by rw [hp]; exact Ne.symm h
      simp [mapGet, hp']
    · rw [mapSet_cons_ne p rest k v hp]
      simp only [mapGet]
      rw [ih]

theorem mem_keysOf_head_or {α : Type} (p : String × α) (l : List (String × α))
    (k : String) (h : k ∈ keysOf (p :: l)) : p.1 = k ∨ k ∈ keysOf l := by
  rw [keysOf_cons, List.mem_cons] at h
  rcases h with h | h
  · exact Or.inl h.symm
  · exact Or.inr h

theorem keysOf_mapSet_mem {α : Type} (m : List (String × α)) (k : String) (v : α) :
    k ∈ keysOf m → keysOf (mapSet m k v) = keysOf m := by
  induction m with
  | nil => intro h; simp [keysOf] at h
  | cons p rest ih =>
    intro h
    by_cases hp : p.1 = k
    · rw [mapSet_cons_eq p rest k v hp, keysOf_cons, keysOf_cons]
    · have hm : k ∈ keysOf rest := by
        rcases mem_keysOf_head_or p rest k h with h1 | h1
        · exact absurd h1 hp
        · exact h1
      rw [mapSet_cons_ne p rest k v hp, keysOf_cons, keysOf_cons, ih hm]

theorem keysOf_mapSet_not_mem {α : Type} (m : List (String × α)) (k : String) (v : α) :
    k ∉ keysOf m → keysOf (mapSet m k v) = keysOf m ++ [k] := by
  induction m with
  | nil => intro _; simp [mapSet, keysOf]
  | cons p rest ih =>
    intro h
    have hp : p.1 ≠ k := fun hh => h (by rw [keysOf_cons, hh]; exact List.mem_cons_self _ _)
    have hr : k ∉ keysOf rest := fun hh =>
      h (by rw [keysOf_cons]; exact List.mem_cons_of_mem _ hh)
    rw [mapSet_cons_ne p rest k v hp, keysOf_cons, keysOf_cons, ih hr]
    rfl

theorem mem_keysOf_of_mapGet {α : Type} (m : List (String × α)) (k : String) (x : α) :
    mapGet m k = some x → k ∈ keysOf m := by
  induction m with
  | nil => intro h; simp [mapGet] at h
  | cons p rest ih =>
    intro h
    by_cases hp : p.1 = k
    · rw [keysOf_cons, hp]; exact List.mem_cons_self _ _
    · simp only [mapGet, hp, if_false] at h
      rw [keysOf_cons]
      exact List.mem_cons_of_mem _ (ih h)

theorem mapGet_isSome_of_mem {α : Type} (m : List (String × α)) (k : String) :
    k ∈ keysOf m → ∃ x, mapGet m k = some x := by
  induction m with
  | nil => intro h; simp [keysOf] at h
  | cons p rest ih =>
    intro h
    by_cases hp : p.1 = k
    · exact ⟨p.2, by simp [mapGet, hp]⟩
    · have hm : k ∈ keysOf rest := by
        rcases mem_keysOf_head_or p rest k h with h1 | h1
        · exact absurd h1 hp
        · exact h1
      obtain ⟨x, hx⟩ := ih hm
      exact ⟨x, by simp [mapGet, hp, hx]⟩

theorem keysOf_nodup_mapSet {α : Type} (m : List (String × α)) (k : String) (v : α)
    (h : (keysOf m).Nodup) : (keysOf (mapSet m k v)).Nodup := by
  by_cases hk : k ∈ keysOf m
  · rwa [keysOf_mapSet_mem m k v hk]
  · rw [keysOf_mapSet_not_mem m k v hk]
    simpa [List.nodup_append] using ⟨h, hk⟩

theorem mapGet_map {α β : Type} (m : List (String × α)) (f : α → β) (k : String) :
    mapGet (m.map fun p => (p.1, f p.2)) k = (mapGet m k).map f := by
  induction m with
  | nil => simp [mapGet]
  | cons p rest ih =>
    by_cases hp : p.1 = k
    · simp [mapGet, hp]
    · simp [mapGet, hp, ih]

/-- Membership of an entry in a duplicate-free association map is the same
as a successful lookup. -/
theorem mem_iff_mapGet {α : Type} (m : List (String × α)) (k : String) (x : α) :
    (keysOf m).Nodup → ((k, x) ∈ m ↔ mapGet m k = some x) := by
  induction m with
  | nil => intro _; simp [mapGet]
  | cons p rest ih =>
    intro hnd
    rw [keysOf_cons] at hnd
    have hnd1 := List.nodup_cons.mp hnd
    by_cases hp : p.1 = k
    · constructor
      · intro h
        rcases List.mem_cons.mp h with h | h
        · simp [mapGet, hp, ← h]
        · exact absurd (hp ▸ List.mem_map_of_mem Prod.fst h) hnd1.1
      · intro h
        simp only [mapGet, hp, if_true] at h
        have hpx : p = (k, x) := by
          rcases p with ⟨p1, p2⟩
          simp only at hp h
          injection h with h2
          simp [hp, h2]
        rw [hpx]
        exact List.mem_cons_self _ _
    · have hg : mapGet (p :: rest) k = mapGet rest k := by simp [mapGet, hp]
      rw [List.mem_cons, hg, ← ih hnd1.2]
      constructor
      · intro h
        rcases h with h | h
        · exact absurd (congrArg Prod.fst h).symm (by simpa using hp)
        · exact h
      · intro h
        exact Or.inr h

theorem pushIfAbsent_mem (l : List String) (a x : String) :
    x ∈ pushIfAbsent l a ↔ x ∈ l ∨ x = a := by
  by_cases h : a ∈ l
  · simp only [pushIfAbsent, if_pos h]
    constructor
    · exact Or.inl
    · rintro (hx | rfl)
      · exact hx
      · exact h
  · simp [pushIfAbsent, if_neg h]

theorem pushIfAbsent_nodup (l : List String) (a : String) (h : l.Nodup) :
    (pushIfAbsent l a).Nodup := by
  by_cases ha : a ∈ l
  · simpa [pushIfAbsent, if_pos ha] using h
  · simpa [pushIfAbsent, if_neg ha, List.nodup_append] using ⟨h, ha⟩

theorem mapSet_mapSet_self {α : Type} (m : List (String × α)) (k : String) (v1 v2 : α) :
    mapSet (mapSet m k v1) k v2 = mapSet m k v2 := by
  induction m with
  | nil => simp [mapSet]
  | cons p rest ih =>
    by_cases hp : p.1 = k
    · simp [mapSet, hp]
    · simp [mapSet, hp, ih]

/-- The updated `to` node after `addEdge` when the endpoints differ. -/
theorem addEdge_get_to (m : NodeMap) (f t : String) (nf nt : SkillNode)
    (hf : mapGet m f = some nf) (ht : mapGet m t = some nt) (hft : f ≠ t) :
    mapGet (addEdge m f t) t =
      some { nt with dependencies := pushIfAbsent nt.dependencies f } := by
  have h1 : mapGet (mapSet m t { nt with dependencies := pushIfAbsent nt.dependencies f }) f =
      some nf := by rw [mapGet_mapSet_ne m t f _ hft, hf]
  unfold addEdge
  rw [hf, ht]
  simp only [h1]
  rw [mapGet_mapSet_ne _ f t _ (Ne.symm hft), mapGet_mapSet_self]

/-- The updated `from` node after `addEdge` when the endpoints differ. -/
theorem addEdge_get_from (m : NodeMap) (f t : String) (nf nt : SkillNode)
    (hf : mapGet m f = some nf) (ht : mapGet m t = some nt) (hft : f ≠ t) :
    mapGet (addEdge m f t) f =
      some { nf with dependents := pushIfAbsent nf.dependents t } := by
  have h1 : mapGet (mapSet m t { nt with dependencies := pushIfAbsent nt.dependencies f }) f =
      some nf := by rw [mapGet_mapSet_ne m t f _ hft, hf]
  unfold addEdge
  rw [hf, ht]
  simp only [h1]
  rw [mapGet_mapSet_self]

/-- The untouched nodes after `addEdge` when the endpoints differ. -/
theorem addEdge_get_other (m : NodeMap) (f t : String) (nf nt : SkillNode)
    (hf : mapGet m f = some nf) (ht : mapGet m t = some nt) (hft : f ≠ t)
    (x : String) (hxf : x ≠ f) (hxt : x ≠ t) :
    mapGet (addEdge m f t) x = mapGet m x := by
  have h1 : mapGet (mapSet m t { nt with dependencies := pushIfAbsent nt.dependencies f }) f =
      some nf := by rw [mapGet_mapSet_ne m t f _ hft, hf]
  unfold addEdge
  rw [hf, ht]
  simp only [h1]
  rw [mapGet_mapSet_ne _ f x _ hxf, mapGet_mapSet_ne m t x _ hxt]

/-- The updated node after a self `addEdge`. -/
theorem addEdge_get_self (m : NodeMap) (f : String) (nf : SkillNode)
    (hf : mapGet m f = some nf) :
    mapGet (addEdge m f f) f =
      some { nf with dependencies := pushIfAbsent nf.dependencies f,
                     dependents := pushIfAbsent nf.dependents f } := by
  have h1 : mapGet (mapSet m f { nf with dependencies := pushIfAbsent nf.dependencies f }) f =
      some { nf with dependencies := pushIfAbsent nf.dependencies f } := mapGet_mapSet_self _ _ _
  unfold addEdge
  rw [hf]
  simp only [h1]
  rw [mapSet_mapSet_self, mapGet_mapSet_self]

/-- The untouched nodes after a self `addEdge`. -/
theorem addEdge_get_self_other (m : NodeMap) (f : String) (nf : SkillNode)
    (hf : mapGet m f = some nf) (x : String) (hxf : x ≠ f) :
    mapGet (addEdge m f f) x = mapGet m x := by
  have h1 : mapGet (mapSet m f { nf with dependencies := pushIfAbsent nf.dependencies f }) f =
      some { nf with dependencies := pushIfAbsent nf.dependencies f } := mapGet_mapSet_self _ _ _
  unfold addEdge
  rw [hf]
  simp only [h1]
  rw [mapSet_mapSet_self, mapGet_mapSet_ne m f x _ hxf]

/-- `addEdge` is the identity when either endpoint is missing. -/
theorem addEdge_skip (m : NodeMap) (f t : String)
    (h : mapGet m f = none ∨ mapGet m t = none) : addEdge m f t = m := by
  unfold addEdge
  rcases h with h | h
  · rw [h]
  · rw [h]
    cases mapGet m f <;> rfl

/-- `addEdge` result as a double update, distinct endpoints. -/
theorem addEdge_eq (m : NodeMap) (f t : String) (nf nt : SkillNode)
    (hf : mapGet m f = some nf) (ht : mapGet m t = some nt) (hft : f ≠ t) :
    addEdge m f t =
      mapSet (mapSet m t { nt with dependencies := pushIfAbsent nt.dependencies f }) f
        { nf with dependents := pushIfAbsent nf.dependents t } := by
  have h1 : mapGet (mapSet m t { nt with dependencies := pushIfAbsent nt.dependencies f }) f =
      some nf := by rw [mapGet_mapSet_ne m t f _ hft, hf]
  unfold addEdge
  rw [hf, ht]
  simp only [h1]

/-- `addEdge` result as a single update, identical endpoints. -/
theorem addEdge_eq_self (m : NodeMap) (f : String) (nf : SkillNode)
    (hf : mapGet m f = some nf) :
    addEdge m f f =
      mapSet m f { nf with dependencies := pushIfAbsent nf.dependencies f,
                           dependents := pushIfAbsent nf.dependents f } := by
  have h1 : mapGet (mapSet m f { nf with dependencies := pushIfAbsent nf.dependencies f }) f =
      some { nf with dependencies := pushIfAbsent nf.dependencies f } := mapGet_mapSet_self _ _ _
  unfold addEdge
  rw [hf]
  simp only [h1]
  rw [mapSet_mapSet_self]

/-- `addEdge` never changes the key list. -/
theorem addEdge_keys (m : NodeMap) (f t : String) :
    keysOf (addEdge m f t) = keysOf m := by
  cases hf : mapGet m f with
  | none => rw [addEdge_skip m f t (Or.inl hf)]
  | some nf =>
    cases ht : mapGet m t with
    | none => rw [addEdge_skip m f t (Or.inr ht)]
    | some nt =>
      have hfk := mem_keysOf_of_mapGet m f nf hf
      have htk := mem_keysOf_of_mapGet m t nt ht
      by_cases hft : f = t
      · subst hft
        have hsame : nf = nt := by rw [hf] at ht; exact Option.some.inj ht
        subst hsame
        rw [addEdge_eq_self m f nf hf, keysOf_mapSet_mem _ _ _ hfk]
      · rw [addEdge_eq m f t nf nt hf ht hft]
        rw [keysOf_mapSet_mem, keysOf_mapSet_mem _ _ _ htk]
        rwa [keysOf_mapSet_mem _ _ _ htk]

/-- Node-level case analysis of `addEdge` with distinct endpoints. -/
theorem addEdge_node_cases (m : NodeMap) (f t : String) (nf nt : SkillNode)
    (hf : mapGet m f = some nf) (ht : mapGet m t = some nt) (hft : f ≠ t)
    (u : String) (nu : SkillNode) (hget : mapGet (addEdge m f t) u = some nu) :
    (u = f ∧ nu = { nf with dependents := pushIfAbsent nf.dependents t }) ∨
    (u = t ∧ nu = { nt with dependencies := pushIfAbsent nt.dependencies f }) ∨
    (u ≠ f ∧ u ≠ t ∧ mapGet m u = some nu) := by
  by_cases huf : u = f
  · subst huf
    rw [addEdge_get_from m u t nf nt hf ht hft] at hget
    exact Or.inl ⟨rfl, (Option.some.inj hget).symm⟩
  · by_cases hut : u = t
    · subst hut
      rw [addEdge_get_to m f u nf nt hf ht hft] at hget
      exact Or.inr (Or.inl ⟨rfl, (Option.some.inj hget).symm⟩)
    · rw [addEdge_get_other m f t nf nt hf ht hft u huf hut] at hget
      exact Or.inr (Or.inr ⟨huf, hut, hget⟩)

/-- Node-level case analysis of a self `addEdge`. -/
theorem addEdge_node_cases_self (m : NodeMap) (f : String) (nf : SkillNode)
    (hf : mapGet m f = some nf)
    (u : String) (nu : SkillNode) (hget : mapGet (addEdge m f f) u = some nu) :
    (u = f ∧ nu = { nf with dependencies := pushIfAbsent nf.dependencies f,
                            dependents := pushIfAbsent nf.dependents f }) ∨
    (u ≠ f ∧ mapGet m u = some nu) := by
  by_cases huf : u = f
  · subst huf
    rw [addEdge_get_self m u nf hf] at hget
    exact Or.inl ⟨rfl, (Option.some.inj hget).symm⟩
  · rw [addEdge_get_self_other m f nf hf u huf] at hget
    exact Or.inr ⟨huf, hget⟩

/-- `addEdge` preserves well-formedness. -/
theorem addEdge_wf (m : NodeMap) (f t : String) (h : MapWF m) :
    MapWF (addEdge m f t) := by
  cases hf : mapGet m f with
  | none => rw [addEdge_skip m f t (Or.inl hf)]; exact h
  | some nf =>
    cases ht : mapGet m t with
    | none => rw [addEdge_skip m f t (Or.inr ht)]; exact h
    | some nt =>
      have hfk := mem_keysOf_of_mapGet m f nf hf
      have htk := mem_keysOf_of_mapGet m t nt ht
      have hkeys := addEdge_keys m f t
      by_cases hft : f = t
      · subst hft
        have hsame : nf = nt := by rw [hf] at ht; exact Option.some.inj ht
        subst hsame
        refine ⟨by rw [hkeys]; exact h.nodup, ?_, ?_, ?_, ?_, ?_⟩
        · intro u nu hget v hv
          rw [hkeys]
          rcases addEdge_node_cases_self m f nf hf u nu hget with ⟨hu, hnu⟩ | ⟨hu, hgm⟩
          · rw [hnu] at hv
            simp only [pushIfAbsent_mem] at hv
            rcases hv with hv | rfl
            · exact h.depsIn f nf hf v hv
            · exact hfk
          · exact h.depsIn u nu hgm v hv
        · intro u nu hget v hv
          rw [hkeys]
          rcases addEdge_node_cases_self m f nf hf u nu hget with ⟨hu, hnu⟩ | ⟨hu, hgm⟩
          · rw [hnu] at hv
            simp only [pushIfAbsent_mem] at hv
            rcases hv with hv | rfl
            · exact h.depsOut f nf hf v hv
            · exact hfk
          · exact h.depsOut u nu hgm v hv
        · intro u nu hget
          rcases addEdge_node_cases_self m f nf hf u nu hget with ⟨hu, hnu⟩ | ⟨hu, hgm⟩
          · rw [hnu]
            exact pushIfAbsent_nodup _ _ (h.depsNodup f nf hf)
          · exact h.depsNodup u nu hgm
        · intro u nu hget
          rcases addEdge_node_cases_self m f nf hf u nu hget with ⟨hu, hnu⟩ | ⟨hu, hgm⟩
          · rw [hnu]
            exact pushIfAbsent_nodup _ _ (h.depsOutNodup f nf hf)
          · exact h.depsOutNodup u nu hgm
        · intro u nu v nv hgu hgv
          rcases addEdge_node_cases_self m f nf hf u nu hgu with ⟨hu, hnu⟩ | ⟨hu, hgmu⟩ <;>
            rcases addEdge_node_cases_self m f nf hf v nv hgv with ⟨hv, hnv⟩ | ⟨hv, hgmv⟩
          · rw [hnu, hnv, hu, hv]
            simp only [pushIfAbsent_mem]
            rw [h.symm f nf f nf hf hf]
          · rw [hnu, hu]
            simp only [pushIfAbsent_mem]
            rw [h.symm f nf v nv hf hgmv]
            simp [hv]
          · rw [hnv, hv]
            simp only [pushIfAbsent_mem]
            rw [h.symm u nu f nf hgmu hf]
            simp [hu]
          · exact h.symm u nu v nv hgmu hgmv
      · refine ⟨by rw [hkeys]; exact h.nodup, ?_, ?_, ?_, ?_, ?_⟩
        · intro u nu hget v hv
          rw [hkeys]
          rcases addEdge_node_cases m f t nf nt hf ht hft u nu hget with
            ⟨hu, hnu⟩ | ⟨hu, hnu⟩ | ⟨huf, hut, hgm⟩
          · rw [hnu] at hv
            exact h.depsIn f nf hf v hv
          · rw [hnu] at hv
            simp only [pushIfAbsent_mem] at hv
            rcases hv with hv | rfl
            · exact h.depsIn t nt ht v hv
            · exact hfk
          · exact h.depsIn u nu hgm v hv
        · intro u nu hget v hv
          rw [hkeys]
          rcases addEdge_node_cases m f t nf nt hf ht hft u nu hget with
            ⟨hu, hnu⟩ | ⟨hu, hnu⟩ | ⟨huf, hut, hgm⟩
          · rw [hnu] at hv
            simp only [pushIfAbsent_mem] at hv
            rcases hv with hv | rfl
            · exact h.depsOut f nf hf v hv
            · exact htk
          · rw [hnu] at hv
            exact h.depsOut t nt ht v hv
          · exact h.depsOut u nu hgm v hv
        · intro u nu hget
          rcases addEdge_node_cases m f t nf nt hf ht hft u nu hget with
            ⟨hu, hnu⟩ | ⟨hu, hnu⟩ | ⟨huf, hut, hgm⟩
          · rw [hnu]
            exact h.depsNodup f nf hf
          · rw [hnu]
            exact pushIfAbsent_nodup _ _ (h.depsNodup t nt ht)
          · exact h.depsNodup u nu hgm
        · intro u nu hget
          rcases addEdge_node_cases m f t nf nt hf ht hft u nu hget with
            ⟨hu, hnu⟩ | ⟨hu, hnu⟩ | ⟨huf, hut, hgm⟩
          · rw [hnu]
            exact pushIfAbsent_nodup _ _ (h.depsOutNodup f nf hf)
          · rw [hnu]
            exact h.depsOutNodup t nt ht
          · exact h.depsOutNodup u nu hgm
        · intro u nu v nv hgu hgv
          rcases addEdge_node_cases m f t nf nt hf ht hft u nu hgu with
            ⟨hu, hnu⟩ | ⟨hu, hnu⟩ | ⟨huf, hut, hgmu⟩ <;>
            rcases addEdge_node_cases m f t nf nt hf ht hft v nv hgv with
              ⟨hv, hnv⟩ | ⟨hv, hnv⟩ | ⟨hvf, hvt, hgmv⟩
          · rw [hnu, hnv, hu, hv]
            simp only [pushIfAbsent_mem]
            rw [h.symm f nf f nf hf hf]
            simp [hft]
          · rw [hnu, hnv, hu, hv]
            simp only [pushIfAbsent_mem]
            rw [h.symm f nf t nt hf ht]
          · rw [hnu, hu]
            simp only [pushIfAbsent_mem]
            rw [h.symm f nf v nv hf hgmv]
            simp [hvt]
          · rw [hnu, hnv, hu, hv]
            simp only [pushIfAbsent_mem]
            rw [h.symm t nt f nf ht hf]
          · rw [hnu, hnv, hu, hv]
            simp only [pushIfAbsent_mem]
            rw [h.symm t nt t nt ht ht]
            simp [Ne.symm hft]
          · rw [hnu, hu]
            rw [h.symm t nt v nv ht hgmv]
          · rw [hnv, hv]
            rw [h.symm u nu f nf hgmu hf]
          · rw [hnv, hv]
            simp only [pushIfAbsent_mem]
            rw [h.symm u nu t nt hgmu ht]
            simp [huf]
          · exact h.symm u nu v nv hgmu hgmv

theorem mem_keysOf_mapSet (m : NodeMap) (k : String) (v : SkillNode) (x : String)
    (h : x ∈ keysOf m) : x ∈ keysOf (mapSet m k v) := by
  by_cases hk : k ∈ keysOf m
  · rwa [keysOf_mapSet_mem m k v hk]
  · rw [keysOf_mapSet_not_mem m k v hk]
    exact List.mem_append_left _ h

/-- Fold invariant of the node-initialization pass: keys stay
duplicate-free, every node has empty edge lists, existing keys persist,
and every processed component's identity key is present. -/
theorem buildNodes_aux (skills : List SkillReference) :
    ∀ m : NodeMap, (keysOf m).Nodup →
      (∀ u nu, mapGet m u = some nu → nu.dependencies = [] ∧ nu.dependents = []) →
      (keysOf (skills.foldl (fun m sk => mapSet m (sk.alias_.getD sk.name)
        { name := sk.name, alias_ := sk.alias_, dependencies := [], dependents := [] }) m)).Nodup ∧
      (∀ u nu, mapGet (skills.foldl (fun m sk => mapSet m (sk.alias_.getD sk.name)
        { name := sk.name, alias_ := sk.alias_, dependencies := [], dependents := [] }) m) u =
          some nu → nu.dependencies = [] ∧ nu.dependents = []) ∧
      (∀ x ∈ keysOf m, x ∈ keysOf (skills.foldl (fun m sk => mapSet m (sk.alias_.getD sk.name)
        { name := sk.name, alias_ := sk.alias_, dependencies := [], dependents := [] }) m)) ∧
      (∀ sk ∈ skills, (sk.alias_.getD sk.name) ∈
        keysOf (skills.foldl (fun m sk => mapSet m (sk.alias_.getD sk.name)
          { name := sk.name, alias_ := sk.alias_, dependencies := [], dependents := [] }) m)) := by
  induction skills with
  | nil =>
    intro m hnd hempty
    exact ⟨hnd, hempty, fun x hx => hx, by simp⟩
  | cons sk rest ih =>
    intro m hnd hempty
    have hnd1 := keysOf_nodup_mapSet m (sk.alias_.getD sk.name)
      { name := sk.name, alias_ := sk.alias_, dependencies := [], dependents := [] } hnd
    have hempty1 : ∀ u nu, mapGet (mapSet m (sk.alias_.getD sk.name)
        { name := sk.name, alias_ := sk.alias_, dependencies := [], dependents := [] }) u =
        some nu → nu.dependencies = [] ∧ nu.dependents = [] := by
      intro u nu hget
      by_cases hu : u = sk.alias_.getD sk.name
      · subst hu
        rw [mapGet_mapSet_self] at hget
        cases hget
        exact ⟨rfl, rfl⟩
      · rw [mapGet_mapSet_ne m _ u _ hu] at hget
        exact hempty u nu hget
    obtain ⟨c1, c2, c3, c4⟩ := ih _ hnd1 hempty1
    refine ⟨c1, c2, ?_, ?_⟩
    · intro x hx
      exact c3 x (mem_keysOf_mapSet m _ _ x hx)
    · intro sk2 hsk2
      rcases List.mem_cons.mp hsk2 with rfl | hsk2
      · exact c3 _ (mem_keysOf_of_mapGet _ _ _ (mapGet_mapSet_self m _ _))
      · exact c4 sk2 hsk2

/-- The initialized node table is well-formed. -/
theorem buildNodes_wf (skills : List SkillReference) : MapWF (buildNodes skills) := by
  obtain ⟨c1, c2, _, _⟩ := buildNodes_aux skills [] (by simp [keysOf]) (by simp [mapGet])
  refine ⟨c1, ?_, ?_, ?_, ?_, ?_⟩
  · intro u nu hget v hv
    rw [(c2 u nu hget).1] at hv
    simp at hv
  · intro u nu hget v hv
    rw [(c2 u nu hget).2] at hv
    simp at hv
  · intro u nu hget
    rw [(c2 u nu hget).1]
    exact List.nodup_nil
  · intro u nu hget
    rw [(c2 u nu hget).2]
    exact List.nodup_nil
  · intro u nu v nv hgu hgv
    rw [(c2 u nu hgu).2, (c2 v nv hgv).1]
    simp

/-- Every declared component's identity key is a node key. -/
theorem buildNodes_key_mem (skills : List SkillReference) (sk : SkillReference)
    (h : sk ∈ skills) : (sk.alias_.getD sk.name) ∈ keysOf (buildNodes skills) := by
  obtain ⟨_, _, _, c4⟩ := buildNodes_aux skills [] (by simp [keysOf]) (by simp [mapGet])
  exact c4 sk h

theorem addChain_wf : ∀ (parts : List String) (m : NodeMap), MapWF m →
    MapWF (addChain parts m)
  | [], _, h => h
  | [_], _, h => h
  | a :: b :: rest, m, h => addChain_wf (b :: rest) (addEdge m a b) (addEdge_wf m a b h)

theorem addChain_keys : ∀ (parts : List String) (m : NodeMap),
    keysOf (addChain parts m) = keysOf m
  | [], _ => rfl
  | [_], _ => rfl
  | a :: b :: rest, m => by
      rw [show addChain (a :: b :: rest) m = addChain (b :: rest) (addEdge m a b) from rfl,
        addChain_keys (b :: rest) (addEdge m a b), addEdge_keys]

theorem parseOrderingConstraint_wf (s : String) (m : NodeMap) (h : MapWF m) :
    MapWF (parseOrderingConstraint s m) := by
  unfold parseOrderingConstraint
  by_cases hl : (constraintParts s).length < 2
  · simpa [hl] using h
  · simpa [hl] using addChain_wf (constraintParts s) m h

theorem parseOrderingConstraint_keys (s : String) (m : NodeMap) :
    keysOf (parseOrderingConstraint s m) = keysOf m := by
  unfold parseOrderingConstraint
  by_cases hl : (constraintParts s).length < 2
  · simp [hl]
  · simpa [hl] using addChain_keys (constraintParts s) m

theorem constraintFold_wf (ord : List String) :
    ∀ m : NodeMap, MapWF m →
      MapWF (ord.foldl (fun m c => parseOrderingConstraint c m) m) ∧
      keysOf (ord.foldl (fun m c => parseOrderingConstraint c m) m) = keysOf m := by
  induction ord with
  | nil => intro m h; exact ⟨h, rfl⟩
  | cons c rest ih =>
    intro m h
    obtain ⟨w1, w2⟩ := ih (parseOrderingConstraint c m) (parseOrderingConstraint_wf c m h)
    rw [List.foldl_cons]
    exact ⟨w1, by rw [w2, parseOrderingConstraint_keys]⟩

/-- The graph built by `resolveDependencyGraph` is well-formed. -/
theorem graphNodes_wf (combo : ComboSkillDefinition) : MapWF (graphNodes combo) := by
  unfold graphNodes
  cases orderingOf combo with
  | none => exact buildNodes_wf combo.skills
  | some ord => exact (constraintFold_wf ord _ (buildNodes_wf combo.skills)).1

/-- Edge construction never changes the key list of the built graph. -/
theorem graphNodes_keys (combo : ComboSkillDefinition) :
    keysOf (graphNodes combo) = keysOf (buildNodes combo.skills) := by
  unfold graphNodes
  cases orderingOf combo with
  | none => rfl
  | some ord => exact (constraintFold_wf ord _ (buildNodes_wf combo.skills)).2

theorem filterMap_if_sublist {α : Type} (l : List (α × Int)) (P : α × Int → Prop)
    [DecidablePred P] :
    (l.filterMap fun p => if P p then some p.1 else none).Sublist (l.map Prod.fst) := by
  induction l with
  | nil => simp
  | cons p rest ih =>
    by_cases hp : P p
    · simpa [hp] using ih.cons₂ p.1
    · simpa [hp] using ih.cons p.1

theorem keysOf_inDeg0 (m : NodeMap) : keysOf (inDeg0 m) = keysOf m := by
  simp [keysOf, inDeg0]

theorem mapGet_inDeg0 (m : NodeMap) (k : String) :
    mapGet (inDeg0 m) k = (mapGet m k).map fun node => (node.dependencies.length : Int) := by
  unfold inDeg0
  exact mapGet_map m (fun node => (node.dependencies.length : Int)) k

theorem queue0_nodup (m : NodeMap) (h : (keysOf m).Nodup) : (queue0 m).Nodup := by
  have hs : (queue0 m).Sublist (keysOf (inDeg0 m)) := by
    unfold queue0 keysOf
    exact filterMap_if_sublist (inDeg0 m) fun p => p.2 = 0
  rw [keysOf_inDeg0] at hs
  exact h.sublist hs

theorem mem_queue0 (m : NodeMap) (h : (keysOf m).Nodup) (v : String) :
    v ∈ queue0 m ↔ mapGet (inDeg0 m) v = some 0 := by
  have hnd : (keysOf (inDeg0 m)).Nodup := by rwa [keysOf_inDeg0]
  unfold queue0
  rw [List.mem_filterMap]
  constructor
  · rintro ⟨p, hp, hif⟩
    by_cases h0 : p.2 = 0
    · simp only [h0, if_true] at hif
      cases hif
      have := (mem_iff_mapGet (inDeg0 m) p.1 p.2 hnd).mp hp
      rwa [h0] at this
    · simp [h0] at hif
  · intro hget
    exact ⟨(v, 0), (mem_iff_mapGet (inDeg0 m) v 0 hnd).mpr hget, by simp⟩

/-- `processDeps` leaves the key set unchanged when every processed
dependent already has an entry. -/
theorem processDeps_keys : ∀ (ds : List String) (deg : List (String × Int)) (q : List String),
    (∀ d ∈ ds, d ∈ keysOf deg) →
    keysOf (processDeps ds deg q).1 = keysOf deg := by
  intro ds
  induction ds with
  | nil => intro deg q _; rfl
  | cons d rest ih =>
    intro deg q hmem
    unfold processDeps
    rw [ih _ _ fun x hx => by
      rw [keysOf_mapSet_mem deg d _ (hmem d (by simp))]
      exact hmem x (by simp [hx])]
    exact keysOf_mapSet_mem deg d _ (hmem d (by simp))

theorem processDeps_cons (d : String) (rest : List String)
    (deg : List (String × Int)) (q : List String) :
    processDeps (d :: rest) deg q =
      processDeps rest (mapSet deg d ((mapGet deg d).getD 0 - 1))
        (if (mapGet deg d).getD 0 - 1 = 0 then q ++ [d] else q) := rfl

/-- The in-degree table after `processDeps`: each listed key is
decremented exactly once. -/
theorem processDeps_get : ∀ (ds : List String) (deg : List (String × Int)) (q : List String),
    ds.Nodup → (∀ d ∈ ds, d ∈ keysOf deg) →
    ∀ v n, mapGet deg v = some n →
      mapGet (processDeps ds deg q).1 v = some (n - if v ∈ ds then 1 else 0) := by
  intro ds
  induction ds with
  | nil => intro deg q _ _ v n hv; simpa [processDeps] using hv
  | cons d rest ih =>
    intro deg q hnd hmem v n hv
    have hdnotr : d ∉ rest := (List.nodup_cons.mp hnd).1
    rw [processDeps_cons]
    by_cases hvd : v = d
    · subst hvd
      have hget1 : mapGet (mapSet deg v ((mapGet deg v).getD 0 - 1)) v =
          some (n - 1) := by
        rw [mapGet_mapSet_self, hv]
        rfl
      have hstep := ih (mapSet deg v ((mapGet deg v).getD 0 - 1))
        (if (mapGet deg v).getD 0 - 1 = 0 then q ++ [v] else q)
        (List.nodup_cons.mp hnd).2
        (fun x hx => by
          rw [keysOf_mapSet_mem deg v _ (hmem v (by simp))]
          exact hmem x (by simp [hx]))
        v (n - 1) hget1
      rw [hstep]
      simp [hdnotr]
    · have hget1 : mapGet (mapSet deg d ((mapGet deg d).getD 0 - 1)) v = some n := by
        rw [mapGet_mapSet_ne deg d v _ hvd, hv]
      have hstep := ih (mapSet deg d ((mapGet deg d).getD 0 - 1))
        (if (mapGet deg d).getD 0 - 1 = 0 then q ++ [d] else q)
        (List.nodup_cons.mp hnd).2
        (fun x hx => by
          rw [keysOf_mapSet_mem deg d _ (hmem d (by simp))]
          exact hmem x (by simp [hx]))
        v n hget1
      rw [hstep]
      simp [hvd]

/-- The queue after `processDeps`: the old queue followed by the listed
keys whose entry was exactly one. -/
theorem processDeps_queue : ∀ (ds : List String) (deg : List (String × Int)) (q : List String),
    ds.Nodup → (∀ d ∈ ds, d ∈ keysOf deg) →
    (processDeps ds deg q).2 =
      q ++ ds.filter fun d => decide ((mapGet deg d).getD 0 = 1) := by
  intro ds
  induction ds with
  | nil => intro deg q _ _; simp [processDeps]
  | cons d rest ih =>
    intro deg q hnd hmem
    have hdnotr : d ∉ rest := (List.nodup_cons.mp hnd).1
    rw [processDeps_cons]
    have hrest : ∀ x ∈ rest, x ∈ keysOf (mapSet deg d ((mapGet deg d).getD 0 - 1)) := by
      intro x hx
      rw [keysOf_mapSet_mem deg d _ (hmem d (by simp))]
      exact hmem x (by simp [hx])
    have hsame : rest.filter (fun x =>
        decide ((mapGet (mapSet deg d ((mapGet deg d).getD 0 - 1)) x).getD 0 = 1)) =
        rest.filter fun x => decide ((mapGet deg x).getD 0 = 1) := by
      apply List.filter_congr
      intro x hx
      rw [mapGet_mapSet_ne deg d x _ (fun hh => hdnotr (hh ▸ hx))]
    by_cases h1 : (mapGet deg d).getD 0 - 1 = 0
    · have h1v : (mapGet deg d).getD 0 = 1 := by omega
      rw [if_pos h1, ih _ (q ++ [d]) (List.nodup_cons.mp hnd).2 hrest, hsame]
      simp [h1v]
    · have h1v : ¬ (mapGet deg d).getD 0 = 1 := by omega
      rw [if_neg h1, ih _ q (List.nodup_cons.mp hnd).2 hrest, hsame]
      simp [h1v]

theorem remCount_nil (l : List String) : remCount l [] = l.length := by
  simp [remCount]

theorem keysOf_length {α : Type} (m : List (String × α)) :
    (keysOf m).length = m.length := by
  simp [keysOf]

/-- Appending a fresh element to the exclusion list lowers the residual
count by one exactly when the element occurs. -/
theorem filter_notmem_append (l out : List String) (c : String)
    (hn : l.Nodup) (hc : c ∉ out) :
    remCount l (out ++ [c]) + (if c ∈ l then 1 else 0) = remCount l out := by
  induction l with
  | nil => simp [remCount]
  | cons x rest ih =>
    have hxr : x ∉ rest := (List.nodup_cons.mp hn).1
    have ih2 := ih (List.nodup_cons.mp hn).2
    by_cases hxc : x = c
    · subst hxc
      simp only [remCount] at ih2 ⊢
      simp [List.filter_cons, hc, hxr] at ih2 ⊢
      omega
    · have hcx : ¬ c = x := fun h => hxc h.symm
      simp only [remCount] at ih2 ⊢
      by_cases hxo : x ∈ out
      · simp [List.filter_cons, hxo, hcx] at ih2 ⊢
        omega
      · simp [List.filter_cons, hxo, hxc, hcx] at ih2 ⊢
        omega

theorem remCount_zero (l out : List String) :
    remCount l out = 0 ↔ ∀ x ∈ l, x ∈ out := by
  constructor
  · intro h x hx
    by_contra hxo
    have : x ∈ l.filter fun x => decide (x ∉ out) := by
      simp [List.mem_filter, hx, hxo]
    have hlen : (l.filter fun x => decide (x ∉ out)).length ≠ 0 := by
      intro h0
      rw [List.length_eq_zero] at h0
      rw [h0] at this
      cases this
    exact hlen h
  · intro h
    simp only [remCount]
    rw [List.length_eq_zero, List.filter_eq_nil_iff]
    intro a ha
    simp [h a ha]

/-- A duplicate-free list whose elements all equal `c` and which contains
`c` is the singleton `[c]`. -/
theorem nodup_all_eq_singleton (l : List String) (c : String) (hn : l.Nodup)
    (ha : ∀ x ∈ l, x = c) (hc : c ∈ l) : l = [c] := by
  cases l with
  | nil => cases hc
  | cons x rest =>
    have hx : x = c := ha x (by simp)
    subst hx
    cases rest with
    | nil => rfl
    | cons y ys =>
      have hy : y = x := ha y (by simp)
      exact absurd (by simp [hy]) (List.nodup_cons.mp hn).1

theorem remCount_one_of (l out : List String) (c : String) (hn : l.Nodup)
    (hcl : c ∈ l) (hco : c ∉ out) (hall : ∀ x ∈ l, x ∉ out → x = c) :
    remCount l out = 1 := by
  have hmem : c ∈ l.filter fun x => decide (x ∉ out) := by
    simp [List.mem_filter, hcl, hco]
  have heq : l.filter (fun x => decide (x ∉ out)) = [c] :=
    nodup_all_eq_singleton _ c (hn.filter _)
      (fun x hx => by
        rcases List.mem_filter.mp hx with ⟨h1, h2⟩
        exact hall x h1 (by simpa using h2))
      hmem
  show (l.filter fun x => decide (x ∉ out)).length = 1
  rw [heq]
  rfl

theorem remCount_eq_one_all (l out : List String) (c : String)
    (h1 : remCount l out = 1) (hcl : c ∈ l) (hco : c ∉ out) :
    ∀ x ∈ l, x ∉ out → x = c := by
  have hmem : c ∈ l.filter fun x => decide (x ∉ out) := by
    simp [List.mem_filter, hcl, hco]
  simp only [remCount] at h1
  rcases List.length_eq_one.mp h1 with ⟨a, ha⟩
  intro x hx hxo
  have hxm : x ∈ l.filter fun x => decide (x ∉ out) := by
    simp [List.mem_filter, hx, hxo]
  rw [ha] at hmem hxm
  simp at hmem hxm
  rw [hxm, hmem]

theorem edgeB_src (m : NodeMap) (u v : String) (h : edgeB m u v = true) :
    u ∈ keysOf m := by
  unfold edgeB at h
  cases hg : mapGet m u with
  | none => rw [hg] at h; cases h
  | some n => exact mem_keysOf_of_mapGet m u n hg

/-- Every element of a successor walk is an edge source (hence a key of the
table) or the final element. -/
theorem walk_src_mem (m : NodeMap) : ∀ (l : List String), walkB m l = true →
    ∀ x ∈ l, x ∈ keysOf m ∨ l.getLast? = some x := by
  intro l
  induction l with
  | nil => intro _ x hx; cases hx
  | cons a rest ih =>
    intro hw x hx
    cases rest with
    | nil =>
      rcases List.mem_singleton.mp hx with rfl
      exact Or.inr rfl
    | cons b bs =>
      have h1 := (Bool.and_eq_true _ _).mp hw
      rcases List.mem_cons.mp hx with rfl | hx2
      · exact Or.inl (edgeB_src m x b h1.1)
      · rcases ih h1.2 x hx2 with h | h
        · exact Or.inl h
        · exact Or.inr (by rwa [List.getLast?_cons_cons])

theorem walkB_concat (m : NodeMap) : ∀ (l : List String) (a b : String),
    walkB m l = true → l.getLast? = some a → edgeB m a b = true →
    walkB m (l ++ [b]) = true := by
  intro l
  induction l with
  | nil => intro a b _ hl _; cases hl
  | cons x rest ih =>
    intro a b hw hl he
    cases rest with
    | nil =>
      simp at hl
      subst hl
      show (edgeB m x b && walkB m [b]) = true
      rw [Bool.and_eq_true]
      exact ⟨he, rfl⟩
    | cons y ys =>
      have h1 := (Bool.and_eq_true _ _).mp hw
      have h2 : (y :: ys).getLast? = some a := by
        rwa [List.getLast?_cons_cons] at hl
      have h3 := ih a b h1.2 h2 he
      show (edgeB m x y && walkB m ((y :: ys) ++ [b])) = true
      rw [Bool.and_eq_true]
      exact ⟨h1.1, h3⟩

theorem walkB_drop (m : NodeMap) : ∀ (l : List String) (n : Nat),
    walkB m l = true → walkB m (l.drop n) = true := by
  intro l
  induction l with
  | nil => intro n _; simp [walkB]
  | cons a rest ih =>
    intro n hw
    cases n with
    | zero => simpa using hw
    | succ k =>
      simp only [List.drop_succ_cons]
      apply ih k
      cases rest with
      | nil => rfl
      | cons b bs => exact ((Bool.and_eq_true _ _).mp hw).2

/-- Ranks strictly decrease along walk edges, so the last element of a
walk inside a ranked set sits no later than the head. -/
theorem walk_indexOf_le (m : NodeMap) (E : List String)
    (hcl : ∀ u ∈ E, ∀ v, edgeB m u v = true → v ∈ E ∧ E.indexOf v < E.indexOf u) :
    ∀ (l : List String) (a : String), walkB m l = true → l.head? = some a →
    (∀ x ∈ l, x ∈ E) → ∀ b, l.getLast? = some b → E.indexOf b ≤ E.indexOf a := by
  intro l
  induction l with
  | nil => intro a _ hh; cases hh
  | cons x rest ih =>
    intro a hw hh hmem b hb
    have hxa : x = a := by simpa using hh
    subst hxa
    cases rest with
    | nil =>
      have hbx : x = b := by simpa using hb
      rw [hbx]
    | cons y ys =>
      have h1 := (Bool.and_eq_true _ _).mp hw
      have hstep := (hcl x (hmem x (by simp)) y h1.1).2
      have htail := ih y h1.2 rfl (fun z hz => hmem z (by simp [hz])) b
        (by rwa [List.getLast?_cons_cons] at hb)
      omega

/-- A set in which every exited node ranks strictly above each of its edge
targets, and which contains every key, admits no directed cycle. -/
theorem no_cycle_of_ranked (m : NodeMap) (E : List String)
    (hcl : ∀ u ∈ E, ∀ v, edgeB m u v = true → v ∈ E ∧ E.indexOf v < E.indexOf u)
    (hkeys : ∀ x, x ∈ keysOf m → x ∈ E) : ¬ HasCycle m := by
  rintro ⟨l, hl⟩
  rw [isCycleList, Bool.and_eq_true, Bool.and_eq_true] at hl
  obtain ⟨⟨hw, hlen⟩, hcyc⟩ := hl
  rw [decide_eq_true_eq] at hlen hcyc
  obtain ⟨a, l1, rfl⟩ : ∃ a l1, l = a :: l1 := by
    cases l with
    | nil => simp at hlen
    | cons a l1 => exact ⟨a, l1, rfl⟩
  obtain ⟨b, l2, rfl⟩ : ∃ b l2, l1 = b :: l2 := by
    cases l1 with
    | nil => simp at hlen
    | cons b l2 => exact ⟨b, l2, rfl⟩
  have h1 := (Bool.and_eq_true _ _).mp hw
  have hlast : (a :: b :: l2).getLast? = some a := by
    rw [← hcyc]; rfl
  have haE : a ∈ E := hkeys a (edgeB_src m a b h1.1)
  have hmem : ∀ x ∈ a :: b :: l2, x ∈ E := by
    intro x hx
    rcases walk_src_mem m _ hw x hx with h | h
    · exact hkeys x h
    · rw [hlast] at h
      cases h
      exact haE
  have hstep : E.indexOf b < E.indexOf a := (hcl a haE b h1.1).2
  have htail := walk_indexOf_le m E hcl (b :: l2) b
    ((Bool.and_eq_true _ _).mp hw).2 rfl
    (fun z hz => hmem z (by simp [hz])) a
    (by rwa [List.getLast?_cons_cons] at hlast)
  omega

theorem descendChain_head (g : Nat → String) (i : Nat) : ∀ k,
    (descendChain g i k).head? = some (g (i + k)) := by
  intro k
  cases k with
  | zero => rfl
  | succ n => rfl

theorem descendChain_length (g : Nat → String) (i : Nat) : ∀ k,
    (descendChain g i k).length = k + 1 := by
  intro k
  induction k with
  | zero => rfl
  | succ n ih => simp [descendChain, ih]

theorem descendChain_getLast (g : Nat → String) (i : Nat) : ∀ k,
    (descendChain g i k).getLast? = some (g i) := by
  intro k
  induction k with
  | zero => rfl
  | succ n ih =>
    cases n with
    | zero => rfl
    | succ p =>
      show (g (i + p + 1 + 1) :: g (i + p + 1) :: descendChain g i p).getLast? = some (g i)
      rw [List.getLast?_cons_cons]
      exact ih

theorem descendChain_walk (m : NodeMap) (g : Nat → String) (i : Nat) : ∀ k,
    (∀ j, j < k → edgeB m (g (i + j + 1)) (g (i + j)) = true) →
    walkB m (descendChain g i k) = true := by
  intro k
  induction k with
  | zero => intro _; rfl
  | succ n ih =>
    intro h
    cases n with
    | zero =>
      show (edgeB m (g (i + 0 + 1)) (g i) && walkB m [g i]) = true
      rw [Bool.and_eq_true]
      exact ⟨h 0 (by omega), rfl⟩
    | succ p =>
      show (edgeB m (g (i + p + 1 + 1)) (g (i + p + 1)) &&
        walkB m (descendChain g i (p + 1))) = true
      rw [Bool.and_eq_true]
      exact ⟨h (p + 1) (by omega), ih (fun j hj => h j (by omega))⟩

/-- If every member of a nonempty set has an in-set edge predecessor, the
graph has a directed cycle (pigeonhole over iterated predecessors). -/
theorem exists_cycle_of_pred (m : NodeMap) (S : List String) (hS : S ≠ [])
    (hf : ∀ v ∈ S, ∃ d, d ∈ S ∧ edgeB m d v = true) : HasCycle m := by
  classical
  have hf2 : ∀ v, ∃ d, v ∈ S → (d ∈ S ∧ edgeB m d v = true) := by
    intro v
    by_cases hv : v ∈ S
    · rcases hf v hv with ⟨d, hd⟩
      exact ⟨d, fun _ => hd⟩
    · exact ⟨v, fun h => absurd h hv⟩
  choose g hg using hf2
  obtain ⟨v0, hv0⟩ : ∃ v, v ∈ S := by
    cases S with
    | nil => exact absurd rfl hS
    | cons a l => exact ⟨a, by simp⟩
  have hit : ∀ n, g^[n] v0 ∈ S := by
    intro n
    induction n with
    | zero => simpa using hv0
    | succ k ih =>
      rw [Function.iterate_succ_apply']
      exact (hg _ ih).1
  have key : ∀ i j, i < j → g^[i] v0 = g^[j] v0 → HasCycle m := by
    intro i j hij hrep
    refine ⟨descendChain (fun n => g^[n] v0) i (j - i), ?_⟩
    have hw := descendChain_walk m (fun n => g^[n] v0) i (j - i)
      (fun p hp => by
        show edgeB m (g^[i + p + 1] v0) (g^[i + p] v0) = true
        rw [Function.iterate_succ_apply']
        exact (hg _ (hit (i + p))).2)
    rw [isCycleList, Bool.and_eq_true, Bool.and_eq_true]
    refine ⟨⟨hw, ?_⟩, ?_⟩
    · rw [decide_eq_true_eq, descendChain_length]
      omega
    · rw [decide_eq_true_eq, descendChain_head, descendChain_getLast]
      show some (g^[i + (j - i)] v0) = some (g^[i] v0)
      have hji : i + (j - i) = j := by omega
      rw [hji, ← hrep]
  have hcard : (S.toFinset).card < (Finset.range (S.length + 1)).card := by
    rw [Finset.card_range]
    exact Nat.lt_succ_of_le S.toFinset_card_le
  have hmaps : ∀ n ∈ Finset.range (S.length + 1), g^[n] v0 ∈ S.toFinset := by
    intro n _
    rw [List.mem_toFinset]
    exact hit n
  obtain ⟨a, _, b, _, hab, heq⟩ :=
    Finset.exists_ne_map_eq_of_card_lt_of_maps_to hcard hmaps
  rcases Nat.lt_trichotomy a b with hlt | heq2 | hgt
  · exact key a b hlt heq
  · exact absurd heq2 hab
  · exact key b a hgt heq.symm

/-- Per-node accounting: a node either starts in the queue or contributes
at least one dependency to the edge total, so the fuel of
`topologicalSort` covers one dequeue per key. -/
theorem length_le_queue0_sumDeps (m : NodeMap) :
    m.length ≤ (queue0 m).length + sumDeps m := by
  induction m with
  | nil => simp
  | cons p rest ih =>
    have hq : queue0 (p :: rest) =
        (if (p.2.dependencies.length : Int) = 0 then [p.1] else []) ++ queue0 rest := by
      simp only [queue0, inDeg0, List.map_cons, List.filterMap_cons]
      split_ifs with h
      · simp
      · simp
    have hs : sumDeps (p :: rest) = p.2.dependencies.length + sumDeps rest := by
      simp [sumDeps]
    rw [hq, hs, List.length_append]
    by_cases h0 : (p.2.dependencies.length : Int) = 0
    · simp only [h0, if_true]
      simp
      omega
    · have hge : 1 ≤ p.2.dependencies.length := by
        rcases Nat.eq_zero_or_pos p.2.dependencies.length with h | h
        · exact absurd (by simp [h]) h0
        · exact h
      simp only [h0, if_false]
      simp
      omega

/-- The Kahn invariant holds at the initial table and queue. -/
theorem kahnInv_init (m : NodeMap) (hwf : MapWF m) :
    KahnInv m (inDeg0 m) (queue0 m) [] := by
  refine ⟨keysOf_inDeg0 m, ?_, ?_, ?_, queue0_nodup m hwf.nodup, List.nodup_nil,
    ?_, ?_, ?_⟩
  · intro v nv hv
    rw [mapGet_inDeg0, hv, remCount_nil]
    rfl
  · intro v hv
    rw [mem_queue0 m hwf.nodup v] at hv
    have := mem_keysOf_of_mapGet (inDeg0 m) v 0 hv
    rwa [keysOf_inDeg0] at this
  · intro v hv
    cases hv
  · intro v hv
    cases hv
  · intro v nv hv
    have hq := mem_queue0 m hwf.nodup v
    have hd : mapGet (inDeg0 m) v = some ((nv.dependencies.length : Int)) := by
      rw [mapGet_inDeg0, hv]
      rfl
    constructor
    · intro hall
      have hnil : nv.dependencies = [] := by
        cases hdep : nv.dependencies with
        | nil => rfl
        | cons d ds => exact absurd (hall d (by simp [hdep])) (by simp)
      right
      rw [hq, hd, hnil]
      simp
    · rintro (hv2 | hv2)
      · cases hv2
      · rw [hq, hd] at hv2
        have hcast : (nv.dependencies.length : Int) = 0 := by
          injection hv2
        have hlen : nv.dependencies.length = 0 := by exact_mod_cast hcast
        rw [List.length_eq_zero] at hlen
        intro d hd2
        rw [hlen] at hd2
        cases hd2
  · intro t ht
    cases ht

/-- One Kahn iteration (dequeue `c`, process its dependents) preserves the
invariant, with `c` appended to the emitted order. -/
theorem kahnInv_step (m : NodeMap) (hwf : MapWF m) (deg : List (String × Int))
    (c : String) (rest out : List String) (node : SkillNode)
    (hc : mapGet m c = some node) (inv : KahnInv m deg (c :: rest) out) :
    KahnInv m (processDeps node.dependents deg rest).1
      (processDeps node.dependents deg rest).2 (out ++ [c]) := by
  have hDnd : node.dependents.Nodup := hwf.depsOutNodup c node hc
  have hDk : ∀ d ∈ node.dependents, d ∈ keysOf m := hwf.depsOut c node hc
  have hDdeg : ∀ d ∈ node.dependents, d ∈ keysOf deg := fun d hd => by
    rw [inv.keys]
    exact hDk d hd
  have hck : c ∈ keysOf m := inv.qsub c (by simp)
  have hcout : c ∉ out := fun h => inv.disj c h (by simp)
  have hcrest : c ∉ rest := (List.nodup_cons.mp inv.qnd).1
  have hrestnd : rest.Nodup := (List.nodup_cons.mp inv.qnd).2
  have hdepsc : ∀ d ∈ node.dependencies, d ∈ out :=
    (inv.ready c node hc).mpr (Or.inr (by simp))
  have hqeq : (processDeps node.dependents deg rest).2 =
      rest ++ node.dependents.filter fun d => decide ((mapGet deg d).getD 0 = 1) :=
    processDeps_queue node.dependents deg rest hDnd hDdeg
  have henq : ∀ x, x ∈ node.dependents.filter
      (fun d => decide ((mapGet deg d).getD 0 = 1)) → x ∉ out ∧ x ∉ c :: rest := by
    intro x hx
    rw [List.mem_filter] at hx
    obtain ⟨hxD, hxc⟩ := hx
    obtain ⟨nx, hnx⟩ := mapGet_isSome_of_mem m x (hDk x hxD)
    have hxdeg := inv.degv x nx hnx
    rw [hxdeg] at hxc
    have h1 : remCount nx.dependencies out = 1 := by
      have := of_decide_eq_true hxc
      simp only [Option.getD_some] at this
      exact_mod_cast this
    have hnotsub : ¬ ∀ d ∈ nx.dependencies, d ∈ out := by
      intro hsub
      have h0 := (remCount_zero nx.dependencies out).mpr hsub
      omega
    have hmem2 : ¬ (x ∈ out ∨ x ∈ c :: rest) :=
      fun hm => hnotsub ((inv.ready x nx hnx).mpr hm)
    exact ⟨fun h => hmem2 (Or.inl h), fun h => hmem2 (Or.inr h)⟩
  refine ⟨?_, ?_, ?_, ?_, ?_, ?_, ?_, ?_, ?_⟩
  · rw [processDeps_keys node.dependents deg rest hDdeg]
    exact inv.keys
  · intro v nv hv
    have hvdeg : mapGet deg v = some (remCount nv.dependencies out : Int) :=
      inv.degv v nv hv
    have hstep := processDeps_get node.dependents deg rest hDnd hDdeg v _ hvdeg
    rw [hstep]
    congr 1
    have hsym : v ∈ node.dependents ↔ c ∈ nv.dependencies :=
      hwf.symm c node v nv hc hv
    have hrc := filter_notmem_append nv.dependencies out c (hwf.depsNodup v nv hv) hcout
    by_cases hcd : c ∈ nv.dependencies
    · rw [if_pos (hsym.mpr hcd)]
      rw [if_pos hcd] at hrc
      omega
    · rw [if_neg (fun h => hcd (hsym.mp h))]
      rw [if_neg hcd] at hrc
      omega
  · intro v hv
    rw [hqeq] at hv
    rcases List.mem_append.mp hv with h | h
    · exact inv.qsub v (by simp [h])
    · exact hDk v (List.mem_of_mem_filter h)
  · intro v hv
    rcases List.mem_append.mp hv with h | h
    · exact inv.osub v h
    · have : v = c := by simpa using h
      rw [this]
      exact hck
  · rw [hqeq, List.nodup_append]
    refine ⟨hrestnd, hDnd.filter _, ?_⟩
    intro x hx hx2
    exact (henq x hx2).2 (by simp [hx])
  · rw [List.nodup_append]
    exact ⟨inv.ond, List.nodup_singleton c, fun x hx hx2 => hcout ((by simpa using hx2) ▸ hx)⟩
  · intro v hvout hvq
    rw [hqeq] at hvq
    rcases List.mem_append.mp hvout with h | h
    · rcases List.mem_append.mp hvq with h2 | h2
      · exact inv.disj v h (by simp [h2])
      · exact (henq v h2).1 h
    · have hvc : v = c := by simpa using h
      subst hvc
      rcases List.mem_append.mp hvq with h2 | h2
      · exact hcrest h2
      · exact (henq v h2).2 (by simp)
  · intro v nv hv
    have hvdeg : mapGet deg v = some (remCount nv.dependencies out : Int) :=
      inv.degv v nv hv
    have hsym : v ∈ node.dependents ↔ c ∈ nv.dependencies :=
      hwf.symm c node v nv hc hv
    have hnvnd : nv.dependencies.Nodup := hwf.depsNodup v nv hv
    constructor
    · intro hall
      by_cases hcd : c ∈ nv.dependencies
      · have h1 : remCount nv.dependencies out = 1 := by
          apply remCount_one_of nv.dependencies out c hnvnd hcd hcout
          intro x hx hxo
          rcases List.mem_append.mp (hall x hx) with h | h
          · exact absurd h hxo
          · simpa using h
        right
        rw [hqeq, List.mem_append]
        right
        rw [List.mem_filter]
        refine ⟨hsym.mpr hcd, ?_⟩
        rw [hvdeg]
        simp [h1]
      · have hsub : ∀ d ∈ nv.dependencies, d ∈ out := by
          intro x hx
          rcases List.mem_append.mp (hall x hx) with h | h
          · exact h
          · exact absurd ((by simpa using h : x = c) ▸ hx) hcd
        rcases (inv.ready v nv hv).mp hsub with h | h
        · exact Or.inl (by simp [h])
        · rcases List.mem_cons.mp h with rfl | h2
          · exact Or.inl (by simp)
          · right
            rw [hqeq, List.mem_append]
            exact Or.inl h2
    · intro hin
      rcases hin with h | h
      · rcases List.mem_append.mp h with h2 | h2
        · intro d hd
          exact List.mem_append.mpr (Or.inl ((inv.ready v nv hv).mpr (Or.inl h2) d hd))
        · have hvc : v = c := by simpa using h2
          subst hvc
          have hnveq : nv = node := by
            rw [hv] at hc
            injection hc
          intro d hd
          rw [hnveq] at hd
          exact List.mem_append.mpr (Or.inl (hdepsc d hd))
      · rw [hqeq] at h
        rcases List.mem_append.mp h with h2 | h2
        · intro d hd
          exact List.mem_append.mpr
            (Or.inl ((inv.ready v nv hv).mpr (Or.inr (by simp [h2])) d hd))
        · rw [List.mem_filter] at h2
          obtain ⟨hvD, hcond⟩ := h2
          have hcd : c ∈ nv.dependencies := hsym.mp hvD
          have h1 : remCount nv.dependencies out = 1 := by
            rw [hvdeg] at hcond
            have := of_decide_eq_true hcond
            simp only [Option.getD_some] at this
            exact_mod_cast this
          have hall2 := remCount_eq_one_all nv.dependencies out c h1 hcd hcout
          intro d hd
          by_cases hdo : d ∈ out
          · exact List.mem_append.mpr (Or.inl hdo)
          · rw [hall2 d hd hdo]
            simp
  · intro t ht nt hnt fd hfd
    rcases List.mem_append.mp ht with h | h
    · obtain ⟨l1, l2, heq2, hf1, ht2⟩ := inv.ord t h nt hnt fd hfd
      exact ⟨l1, l2 ++ [c], by rw [heq2, List.append_assoc], hf1, by simp [ht2]⟩
    · have htc : t = c := by simpa using h
      subst htc
      have hnteq : nt = node := by
        rw [hnt] at hc
        injection hc
      refine ⟨out, [t], rfl, ?_, by simp⟩
      apply hdepsc
      rw [← hnteq]
      exact hfd

/-- When every key has been emitted, the accumulated order satisfies the
specification of the sort. -/
theorem kahnInv_terminal (m : NodeMap) (deg : List (String × Int))
    (q out : List String) (inv : KahnInv m deg q out)
    (hcov : ∀ x ∈ keysOf m, x ∈ out) :
    out.Nodup ∧ (∀ k, k ∈ out ↔ k ∈ keysOf m) ∧
    (∀ t nt, mapGet m t = some nt → ∀ fd ∈ nt.dependencies,
      ∃ l1 l2, out = l1 ++ l2 ∧ fd ∈ l1 ∧ t ∈ l2) := by
  refine ⟨inv.ond, fun k => ⟨fun h => inv.osub k h, fun h => hcov k h⟩, ?_⟩
  intro t nt hnt fd hfd
  exact inv.ord t (hcov t (mem_keysOf_of_mapGet m t nt hnt)) nt hnt fd hfd

/-- When the queue empties on an acyclic graph, every key has been
emitted: a nonempty remainder would yield an in-set predecessor for each
of its members and hence a directed cycle. -/
theorem kahnInv_nil_cov (m : NodeMap) (hwf : MapWF m) (hnc : ¬ HasCycle m)
    (deg : List (String × Int)) (out : List String)
    (inv : KahnInv m deg [] out) : ∀ x ∈ keysOf m, x ∈ out := by
  by_contra hne
  push_neg at hne
  obtain ⟨x0, hx0k, hx0o⟩ := hne
  have hSne : (keysOf m).filter (fun v => decide (v ∉ out)) ≠ [] := by
    intro h
    have hx : x0 ∈ (keysOf m).filter (fun v => decide (v ∉ out)) := by
      simp [List.mem_filter, hx0k, hx0o]
    rw [h] at hx
    cases hx
  apply hnc
  apply exists_cycle_of_pred m ((keysOf m).filter (fun v => decide (v ∉ out))) hSne
  intro v hv
  rw [List.mem_filter] at hv
  obtain ⟨hvk, hvo⟩ := hv
  have hvo2 : v ∉ out := by simpa using hvo
  obtain ⟨nv, hnv⟩ := mapGet_isSome_of_mem m v hvk
  have hnotsub : ¬ ∀ d ∈ nv.dependencies, d ∈ out := by
    intro hsub
    rcases (inv.ready v nv hnv).mp hsub with h | h
    · exact hvo2 h
    · cases h
  push_neg at hnotsub
  obtain ⟨d, hd, hdo⟩ := hnotsub
  have hdk : d ∈ keysOf m := hwf.depsIn v nv hnv d hd
  obtain ⟨nd, hnd⟩ := mapGet_isSome_of_mem m d hdk
  refine ⟨d, ?_, ?_⟩
  · rw [List.mem_filter]
    exact ⟨hdk, by simpa using hdo⟩
  · have hvd : v ∈ nd.dependents := (hwf.symm d nd v nv hnd hnv).mpr hd
    unfold edgeB
    rw [hnd]
    simpa using hvd

/-- The Kahn loop of `topologicalSort` emits every key exactly once, in an
order in which every node follows all of its dependencies. -/
theorem kahnLoop_spec (m : NodeMap) (hwf : MapWF m) (hnc : ¬ HasCycle m) :
    ∀ (f : Nat) (deg : List (String × Int)) (q out : List String),
    KahnInv m deg q out → remCount (keysOf m) out ≤ f →
    (out ++ kahnLoop m f deg q).Nodup ∧
    (∀ k, k ∈ out ++ kahnLoop m f deg q ↔ k ∈ keysOf m) ∧
    (∀ t nt, mapGet m t = some nt → ∀ fd ∈ nt.dependencies,
      ∃ l1 l2, out ++ kahnLoop m f deg q = l1 ++ l2 ∧ fd ∈ l1 ∧ t ∈ l2) := by
  intro f
  induction f with
  | zero =>
    intro deg q out inv hfuel
    have hcov := (remCount_zero _ _).mp (Nat.le_zero.mp hfuel)
    have ht := kahnInv_terminal m deg q out inv hcov
    simpa [kahnLoop] using ht
  | succ n ih =>
    intro deg q out inv hfuel
    cases q with
    | nil =>
      have hcov := kahnInv_nil_cov m hwf hnc deg out inv
      have ht := kahnInv_terminal m deg [] out inv hcov
      simpa [kahnLoop] using ht
    | cons c rest =>
      have hck : c ∈ keysOf m := inv.qsub c (by simp)
      obtain ⟨node, hc⟩ := mapGet_isSome_of_mem m c hck
      have hunfold : kahnLoop m (n + 1) deg (c :: rest) =
          c :: kahnLoop m n (processDeps node.dependents deg rest).1
            (processDeps node.dependents deg rest).2 := by
        conv_lhs => unfold kahnLoop
        simp only [hc]
      have hinv2 := kahnInv_step m hwf deg c rest out node hc inv
      have hcout : c ∉ out := fun h => inv.disj c h (by simp)
      have hfuel2 : remCount (keysOf m) (out ++ [c]) ≤ n := by
        have hfa := filter_notmem_append (keysOf m) out c hwf.nodup hcout
        rw [if_pos hck] at hfa
        omega
      have hres := ih _ _ _ hinv2 hfuel2
      rw [hunfold, List.append_cons]
      exact hres

/-- `topologicalSort` on a well-formed acyclic table: every key appears
exactly once and every dependency precedes its dependent. -/
theorem topologicalSort_spec (m : NodeMap) (hwf : MapWF m) (hnc : ¬ HasCycle m) :
    (topologicalSort m).Nodup ∧
    (∀ k, k ∈ topologicalSort m ↔ k ∈ keysOf m) ∧
    (∀ t nt, mapGet m t = some nt → ∀ fd ∈ nt.dependencies,
      ∃ l1 l2, topologicalSort m = l1 ++ l2 ∧ fd ∈ l1 ∧ t ∈ l2) := by
  have hfuel : remCount (keysOf m) [] ≤ (queue0 m).length + sumDeps m + 1 := by
    rw [remCount_nil, keysOf_length]
    have := length_le_queue0_sumDeps m
    omega
  have h := kahnLoop_spec m hwf hnc ((queue0 m).length + sumDeps m + 1)
    (inDeg0 m) (queue0 m) [] (kahnInv_init m hwf) hfuel
  simpa [topologicalSort] using h

theorem setAdd_mem (l : List String) (a x : String) :
    x ∈ setAdd l a ↔ x ∈ l ∨ x = a := by
  unfold setAdd
  by_cases h : a ∈ l
  · rw [if_pos h]
    exact ⟨Or.inl, fun hx => hx.elim id (fun he => he ▸ h)⟩
  · rw [if_neg h]
    simp

theorem setAdd_not_mem (l : List String) (a : String) (h : a ∉ l) :
    setAdd l a = l ++ [a] := by
  unfold setAdd
  rw [if_neg h]

theorem remCount_anti (K v1 v2 : List String) (h : ∀ x ∈ v1, x ∈ v2) :
    remCount K v2 ≤ remCount K v1 := by
  unfold remCount
  induction K with
  | nil => exact Nat.le_refl _
  | cons x rest ih =>
    rw [List.filter_cons, List.filter_cons]
    by_cases hx1 : x ∈ v1
    · have hx2 : x ∈ v2 := h x hx1
      rw [if_neg (by simp [hx2]), if_neg (by simp [hx1])]
      exact ih
    · by_cases hx2 : x ∈ v2
      · rw [if_neg (by simp [hx2]), if_pos (by simp [hx1])]
        simp only [List.length_cons]
        exact Nat.le_succ_of_le ih
      · rw [if_pos (by simp [hx2]), if_pos (by simp [hx1])]
        simp only [List.length_cons]
        exact Nat.succ_le_succ ih

theorem remCount_le (K v : List String) : remCount K v ≤ K.length := by
  unfold remCount
  exact List.length_filter_le _ K

theorem erase_append_last (l : List String) (a : String) (h : a ∉ l) :
    (l ++ [a]).erase a = l := by
  induction l with
  | nil => simp
  | cons x rest ih =>
    have hxa : x ≠ a := fun he => h (by simp [he])
    have har : a ∉ rest := fun he => h (by simp [he])
    rw [List.cons_append, List.erase_cons_tail, ih har]
    simp [hxa]

theorem indexOf_append_mem (l t : List String) (a : String) (h : a ∈ l) :
    (l ++ t).indexOf a = l.indexOf a := by
  induction l with
  | nil => cases h
  | cons x rest ih =>
    by_cases hx : x = a
    · subst hx
      simp [List.indexOf_cons_self]
    · have har : a ∈ rest := by
        rcases List.mem_cons.mp h with h2 | h2
        · exact absurd h2.symm hx
        · exact h2
      rw [List.cons_append]
      rw [List.indexOf_cons_ne _ hx, List.indexOf_cons_ne _ hx, ih har]

theorem indexOf_append_last (l : List String) (a : String) (h : a ∉ l) :
    (l ++ [a]).indexOf a = l.length := by
  induction l with
  | nil => simp
  | cons x rest ih =>
    have hxa : ¬ x = a := fun he => h (by simp [he])
    have har : a ∉ rest := fun he => h (by simp [he])
    rw [List.cons_append, List.indexOf_cons_ne _ hxa, ih har]
    rfl

/-- The instrumented dependent loop projects onto the source loop. -/
theorem dfsListI_proj (m : NodeMap) (f : Nat) (key : String) (path1 : List String)
    (ihf : ∀ (k : String) (p : List String) (st : DfsStateI),
      dfs m f k p (projI st) = (projI (dfsI m f k p st).1, (dfsI m f k p st).2)) :
    ∀ (ds : List String) (v s : List String) (c : List (List String)) (e : List String),
    dfsList (fun d st => dfs m f d path1 st) key path1 ds ⟨v, s, c⟩ =
      (projI (dfsListI (fun d st => dfsI m f d path1 st) key path1 ds ⟨v, s, c, e⟩).1,
       (dfsListI (fun d st => dfsI m f d path1 st) key path1 ds ⟨v, s, c, e⟩).2) := by
  intro ds
  induction ds with
  | nil => intro v s c e; rfl
  | cons d ds ih =>
    intro v s c e
    simp only [dfsList, dfsListI]
    by_cases hd : d ∈ v
    · rw [if_neg (show ¬ d ∉ v from not_not_intro hd),
        if_neg (show ¬ d ∉ v from not_not_intro hd)]
      by_cases hs : d ∈ s
      · rw [if_pos hs, if_pos hs]
        rfl
      · rw [if_neg hs, if_neg hs]
        exact ih v s c e
    · rw [if_pos hd, if_pos hd]
      have hres : dfs m f d path1 ⟨v, s, c⟩ =
          (projI (dfsI m f d path1 ⟨v, s, c, e⟩).1, (dfsI m f d path1 ⟨v, s, c, e⟩).2) :=
        ihf d path1 ⟨v, s, c, e⟩
      rcases hR : dfsI m f d path1 ⟨v, s, c, e⟩ with ⟨st2, b⟩
      rw [hR] at hres
      rw [hres]
      cases b with
      | true => rfl
      | false =>
        obtain ⟨v2, s2, c2, e2⟩ := st2
        exact ih v2 s2 c2 e2

/-- The instrumented traversal projects onto the source traversal. -/
theorem dfsI_proj (m : NodeMap) : ∀ (f : Nat) (k : String) (p : List String)
    (st : DfsStateI),
    dfs m f k p (projI st) = (projI (dfsI m f k p st).1, (dfsI m f k p st).2) := by
  intro f
  induction f with
  | zero => intro k p st; rfl
  | succ f ihf =>
    intro k p st
    obtain ⟨v, s, c, e⟩ := st
    show dfs m (f + 1) k p ⟨v, s, c⟩ = _
    simp only [dfs, dfsI]
    cases hg : mapGet m k with
    | none => rfl
    | some node =>
      exact dfsListI_proj m f k (p ++ [k]) ihf node.dependents
        (setAdd v k) (setAdd s k) c e

/-- The driver fold of `detectCycles` projects likewise. -/
theorem detectFold_proj (m : NodeMap) : ∀ (ks : List String) (st : DfsStateI),
    ks.foldl (fun st k => if k ∈ st.visited then st else (dfs m (m.length + 1) k [] st).1)
      (projI st) =
    projI (ks.foldl
      (fun st k => if k ∈ st.visited then st else (dfsI m (m.length + 1) k [] st).1) st) := by
  intro ks
  induction ks with
  | nil => intro st; rfl
  | cons k ks ih =>
    intro st
    simp only [List.foldl_cons]
    by_cases hk : k ∈ st.visited
    · rw [if_pos (show k ∈ (projI st).visited from hk), if_pos hk]
      exact ih st
    · rw [if_neg (show k ∉ (projI st).visited from hk), if_neg hk]
      rw [dfsI_proj m (m.length + 1) k [] st]
      exact ih (dfsI m (m.length + 1) k [] st).1

theorem detectState_proj (m : NodeMap) : detectState m = projI (detectStateI m) := by
  unfold detectState detectStateI
  exact detectFold_proj m (m.map Prod.fst) ⟨[], [], [], []⟩

theorem detectState_cycles (m : NodeMap) :
    (detectState m).cycles = (detectStateI m).cycles := by
  rw [detectState_proj]
  rfl

/-- Unconditional facts about the instrumented loop: the visited set only
grows, cycle records are only appended, and a `true` result certifies a
nonempty cycle list. -/
theorem dfsListI_mono (m : NodeMap) (f : Nat) (key : String) (path1 : List String)
    (ihf : ∀ (k : String) (p : List String) (st : DfsStateI),
      (∀ x ∈ st.visited, x ∈ (dfsI m f k p st).1.visited) ∧
      (∃ ex, (dfsI m f k p st).1.cycles = st.cycles ++ ex) ∧
      ((dfsI m f k p st).2 = true → (dfsI m f k p st).1.cycles ≠ [])) :
    ∀ (ds : List String) (st : DfsStateI),
    (∀ x ∈ st.visited,
      x ∈ (dfsListI (fun d st => dfsI m f d path1 st) key path1 ds st).1.visited) ∧
    (∃ ex, (dfsListI (fun d st => dfsI m f d path1 st) key path1 ds st).1.cycles =
      st.cycles ++ ex) ∧
    ((dfsListI (fun d st => dfsI m f d path1 st) key path1 ds st).2 = true →
      (dfsListI (fun d st => dfsI m f d path1 st) key path1 ds st).1.cycles ≠ []) := by
  intro ds
  induction ds with
  | nil =>
    intro st
    simp only [dfsListI]
    exact ⟨fun x hx => hx, ⟨[], by simp⟩, fun h => Bool.noConfusion h⟩
  | cons d ds ih =>
    intro st
    simp only [dfsListI]
    by_cases hd : d ∈ st.visited
    · rw [if_neg (show ¬ d ∉ st.visited from not_not_intro hd)]
      by_cases hs : d ∈ st.stack
      · rw [if_pos hs]
        refine ⟨fun x hx => hx, ⟨_, rfl⟩, fun _ => by simp⟩
      · rw [if_neg hs]
        exact ih st
    · rw [if_pos hd]
      rcases hR : dfsI m f d path1 st with ⟨st2, b⟩
      have hcall := ihf d path1 st
      rw [hR] at hcall
      cases b with
      | true =>
        exact ⟨hcall.1, hcall.2.1, fun _ => hcall.2.2 rfl⟩
      | false =>
        have hrec := ih st2
        obtain ⟨ex1, hex1⟩ := hcall.2.1
        obtain ⟨ex2, hex2⟩ := hrec.2.1
        refine ⟨fun x hx => hrec.1 x (hcall.1 x hx), ?_, ?_⟩
        · exact ⟨ex1 ++ ex2, by rw [hex2, hex1, List.append_assoc]⟩
        · intro ht
          have := hrec.2.2 ht
          exact this

/-- Unconditional facts about the instrumented traversal: the visited set
only grows (and contains the call key when fuel remains), cycle records are
only appended, and a `true` result certifies a nonempty cycle list. -/
theorem dfsI_mono (m : NodeMap) : ∀ (f : Nat) (k : String) (p : List String)
    (st : DfsStateI),
    (∀ x ∈ st.visited, x ∈ (dfsI m f k p st).1.visited) ∧
    (∃ ex, (dfsI m f k p st).1.cycles = st.cycles ++ ex) ∧
    ((dfsI m f k p st).2 = true → (dfsI m f k p st).1.cycles ≠ []) ∧
    (0 < f → k ∈ (dfsI m f k p st).1.visited) := by
  intro f
  induction f with
  | zero =>
    intro k p st
    exact ⟨fun x hx => hx, ⟨[], by simp [dfsI]⟩,
      fun h => Bool.noConfusion h, fun h => absurd h (by omega)⟩
  | succ f ihf =>
    intro k p st
    obtain ⟨v, s, c, e⟩ := st
    have ihf3 : ∀ (k2 : String) (p2 : List String) (st2 : DfsStateI),
        (∀ x ∈ st2.visited, x ∈ (dfsI m f k2 p2 st2).1.visited) ∧
        (∃ ex, (dfsI m f k2 p2 st2).1.cycles = st2.cycles ++ ex) ∧
        ((dfsI m f k2 p2 st2).2 = true → (dfsI m f k2 p2 st2).1.cycles ≠ []) :=
      fun k2 p2 st2 => ⟨(ihf k2 p2 st2).1, (ihf k2 p2 st2).2.1, (ihf k2 p2 st2).2.2.1⟩
    simp only [dfsI]
    cases hg : mapGet m k with
    | none =>
      refine ⟨fun x hx => ?_, ⟨[], by simp⟩, fun h => Bool.noConfusion h, fun _ => ?_⟩
      · exact (setAdd_mem v k x).mpr (Or.inl hx)
      · exact (setAdd_mem v k k).mpr (Or.inr rfl)
    | some node =>
      have hloop := dfsListI_mono m f k (p ++ [k]) ihf3 node.dependents
        ⟨setAdd v k, setAdd s k, c, e⟩
      refine ⟨fun x hx => hloop.1 x ((setAdd_mem v k x).mpr (Or.inl hx)),
        hloop.2.1, hloop.2.2, fun _ => hloop.1 k ((setAdd_mem v k k).mpr (Or.inr rfl))⟩

/-- A clean run of the dependent loop of the instrumented `dfs`: assuming
the state invariant, a `false` result restores the stack, records no cycle
and appends the key to the exit order after all nested exits. -/
theorem dfsListI_clean (m : NodeMap) (hwf : MapWF m) (f : Nat) (key : String)
    (path1 : List String) (node : SkillNode) (hkey : mapGet m key = some node)
    (ihf : ∀ (k : String) (p : List String) (st : DfsStateI),
      DetInv m st → k ∈ keysOf m → k ∉ st.visited →
      remCount (keysOf m) st.visited ≤ f →
      (dfsI m f k p st).2 = true ∨
      ((dfsI m f k p st).2 = false ∧ CleanPost m k st (dfsI m f k p st).1)) :
    ∀ (ds : List String) (st : DfsStateI),
    DetInv m st → key ∈ st.visited → key ∈ st.stack → key ∉ st.exited →
    remCount (keysOf m) st.visited ≤ f →
    (∀ d ∈ ds, d ∈ node.dependents) →
    (∀ d ∈ node.dependents, d ∈ ds ∨ d ∈ st.exited) →
    (dfsListI (fun d st => dfsI m f d path1 st) key path1 ds st).2 = true ∨
    ((dfsListI (fun d st => dfsI m f d path1 st) key path1 ds st).2 = false ∧
     LoopPost m key st (dfsListI (fun d st => dfsI m f d path1 st) key path1 ds st).1) := by
  intro ds
  induction ds with
  | nil =>
    intro st hinv hkv hks hke hfuel _ hdone
    right
    refine ⟨rfl, ?_, rfl, fun x hx => hx, rfl, [], by simp [dfsListI],
      fun x hx => absurd hx (by simp)⟩
    show DetInv m ⟨st.visited, setDelete st.stack key, st.cycles, st.exited ++ [key]⟩
    refine ⟨?_, ?_, ?_, ?_, ?_⟩
    · show ∀ x ∈ st.visited, x ∈ setDelete st.stack key ∨ x ∈ st.exited ++ [key]
      intro x hx
      rcases hinv.vse x hx with h | h
      · by_cases hxk : x = key
        · subst hxk
          exact Or.inr (by simp)
        · exact Or.inl (List.mem_erase_of_ne hxk |>.mpr h)
      · exact Or.inr (by simp [h])
    · show ∀ x ∈ setDelete st.stack key, x ∈ st.visited
      intro x hx
      exact hinv.sv x (List.mem_of_mem_erase hx)
    · show ∀ x ∈ st.exited ++ [key], x ∈ st.visited
      intro x hx
      rcases List.mem_append.mp hx with h | h
      · exact hinv.ev x h
      · rw [show x = key from by simpa using h]
        exact hkv
    · show (st.exited ++ [key]).Nodup
      rw [List.nodup_append]
      exact ⟨hinv.enodup, List.nodup_singleton key,
        fun x hx hx2 => hke ((by simpa using hx2) ▸ hx)⟩
    · show ∀ u ∈ st.exited ++ [key], ∀ w, edgeB m u w = true →
        w ∈ st.exited ++ [key] ∧
          (st.exited ++ [key]).indexOf w < (st.exited ++ [key]).indexOf u
      intro u hu w hw
      rcases List.mem_append.mp hu with h | h
      · have hold := hinv.closed u h w hw
        refine ⟨List.mem_append.mpr (Or.inl hold.1), ?_⟩
        rw [indexOf_append_mem st.exited [key] w hold.1,
          indexOf_append_mem st.exited [key] u h]
        exact hold.2
      · have huk : u = key := by simpa using h
        subst huk
        have hwdep : w ∈ node.dependents := by
          unfold edgeB at hw
          rw [hkey] at hw
          simpa using hw
        have hwex : w ∈ st.exited := by
          rcases hdone w hwdep with h2 | h2
          · cases h2
          · exact h2
        refine ⟨List.mem_append.mpr (Or.inl hwex), ?_⟩
        rw [indexOf_append_mem st.exited [u] w hwex, indexOf_append_last st.exited u hke]
        exact List.indexOf_lt_length.mpr hwex
  | cons d ds ih =>
    intro st hinv hkv hks hke hfuel hds hdone
    simp only [dfsListI]
    by_cases hd : d ∈ st.visited
    · rw [if_neg (show ¬ d ∉ st.visited from not_not_intro hd)]
      by_cases hs : d ∈ st.stack
      · rw [if_pos hs]
        exact Or.inl rfl
      · rw [if_neg hs]
        have hdex : d ∈ st.exited := by
          rcases hinv.vse d hd with h | h
          · exact absurd h hs
          · exact h
        exact ih st hinv hkv hks hke hfuel (fun x hx => hds x (by simp [hx]))
          (fun x hx => by
            rcases hdone x hx with h | h
            · rcases List.mem_cons.mp h with rfl | h2
              · exact Or.inr hdex
              · exact Or.inl h2
            · exact Or.inr h)
    · rw [if_pos hd]
      have hdk : d ∈ keysOf m := hwf.depsOut key node hkey d (hds d (by simp))
      have hcall := ihf d path1 st hinv hdk hd hfuel
      rcases hR : dfsI m f d path1 st with ⟨st2, b⟩
      rw [hR] at hcall
      cases b with
      | true => exact Or.inl rfl
      | false =>
        obtain ⟨-, hpost⟩ := hcall.resolve_left (fun h => Bool.noConfusion h)
        obtain ⟨hinv2, hstk2, hvis2, hcyc2, hdex2, ex1, hex1, hex1v⟩ := hpost
        have hrec := ih st2 hinv2 (hvis2 key hkv) (by rw [hstk2]; exact hks)
          (fun hmem => by
            rw [hex1] at hmem
            rcases List.mem_append.mp hmem with h | h
            · exact hke h
            · exact hex1v key h hkv)
          (Nat.le_trans (remCount_anti (keysOf m) st.visited st2.visited hvis2) hfuel)
          (fun x hx => hds x (by simp [hx]))
          (fun x hx => by
            rcases hdone x hx with h | h
            · rcases List.mem_cons.mp h with rfl | h2
              · exact Or.inr hdex2
              · exact Or.inl h2
            · exact Or.inr (by rw [hex1]; exact List.mem_append.mpr (Or.inl h)))
        rcases hrec with h | ⟨hfalse, hpost2⟩
        · exact Or.inl h
        · right
          refine ⟨hfalse, ?_⟩
          obtain ⟨hinv3, hstk3, hvis3, hcyc3, ex2, hex2, hex2v⟩ := hpost2
          refine ⟨hinv3, by rw [hstk3, hstk2], fun x hx => hvis3 x (hvis2 x hx),
            by rw [hcyc3, hcyc2], ex1 ++ ex2, ?_, ?_⟩
          · rw [hex2, hex1]
            simp [List.append_assoc]
          · intro x hx
            rcases List.mem_append.mp hx with h | h
            · exact hex1v x h
            · exact fun hxv => hex2v x h (hvis2 x hxv)

/-- A clean instrumented `dfs` call on an unvisited key of a well-formed
table satisfies `CleanPost`. -/
theorem dfsI_clean (m : NodeMap) (hwf : MapWF m) : ∀ (f : Nat) (k : String)
    (p : List String) (st : DfsStateI),
    DetInv m st → k ∈ keysOf m → k ∉ st.visited →
    remCount (keysOf m) st.visited ≤ f →
    (dfsI m f k p st).2 = true ∨
    ((dfsI m f k p st).2 = false ∧ CleanPost m k st (dfsI m f k p st).1) := by
  intro f
  induction f with
  | zero =>
    intro k p st hinv hkk hkv hfuel
    exfalso
    have h1 : remCount (keysOf m) st.visited = 0 := Nat.le_zero.mp hfuel
    have := (remCount_zero (keysOf m) st.visited).mp h1 k hkk
    exact hkv this
  | succ f ihf =>
    intro k p st hinv hkk hkv hfuel
    obtain ⟨v, s, c, e⟩ := st
    obtain ⟨node, hget⟩ := mapGet_isSome_of_mem m k hkk
    have hks : k ∉ s := fun h => hkv (hinv.sv k h)
    have hke : k ∉ e := fun h => hkv (hinv.ev k h)
    have hunfold : dfsI m (f + 1) k p ⟨v, s, c, e⟩ =
        dfsListI (fun d st => dfsI m f d (p ++ [k]) st) k (p ++ [k]) node.dependents
          ⟨setAdd v k, setAdd s k, c, e⟩ := by
      conv_lhs => unfold dfsI
      simp only [hget]
    have hinv1 : DetInv m ⟨setAdd v k, setAdd s k, c, e⟩ := by
      refine ⟨?_, ?_, ?_, hinv.enodup, hinv.closed⟩
      · intro x hx
        rcases (setAdd_mem v k x).mp hx with h | h
        · rcases hinv.vse x h with h2 | h2
          · exact Or.inl ((setAdd_mem s k x).mpr (Or.inl h2))
          · exact Or.inr h2
        · exact Or.inl ((setAdd_mem s k x).mpr (Or.inr h))
      · intro x hx
        rcases (setAdd_mem s k x).mp hx with h | h
        · exact (setAdd_mem v k x).mpr (Or.inl (hinv.sv x h))
        · exact (setAdd_mem v k x).mpr (Or.inr h)
      · intro x hx
        exact (setAdd_mem v k x).mpr (Or.inl (hinv.ev x hx))
    have hfuel1 : remCount (keysOf m) (setAdd v k) ≤ f := by
      rw [setAdd_not_mem v k hkv]
      have hfa := filter_notmem_append (keysOf m) v k hwf.nodup hkv
      rw [if_pos hkk] at hfa
      have hfv : remCount (keysOf m) v ≤ f + 1 := hfuel
      omega
    have hloop := dfsListI_clean m hwf f k (p ++ [k]) node hget ihf node.dependents
      ⟨setAdd v k, setAdd s k, c, e⟩ hinv1
      ((setAdd_mem v k k).mpr (Or.inr rfl))
      ((setAdd_mem s k k).mpr (Or.inr rfl))
      hke hfuel1 (fun d hd => hd) (fun d hd => Or.inl hd)
    rw [hunfold]
    rcases hloop with h | ⟨hfalse, hpost⟩
    · exact Or.inl h
    · right
      refine ⟨hfalse, ?_⟩
      obtain ⟨hinv2, hstk2, hvis2, hcyc2, ex, hex, hexv⟩ := hpost
      refine ⟨hinv2, ?_, fun x hx => hvis2 x ((setAdd_mem v k x).mpr (Or.inl hx)),
        hcyc2, ?_, ex ++ [k], ?_, ?_⟩
      · rw [hstk2]
        show setDelete (setAdd s k) k = s
        rw [setAdd_not_mem s k hks]
        exact erase_append_last s k hks
      · rw [hex]
        simp
      · rw [hex, List.append_assoc]
      · intro x hx
        rcases List.mem_append.mp hx with h | h
        · exact fun hxv => hexv x h ((setAdd_mem v k x).mpr (Or.inl hxv))
        · rw [show x = k from by simpa using h]
          exact hkv

/-- The driver fold of the instrumented traversal only grows the visited
set and only appends cycle records. -/
theorem detectFoldI_mono (m : NodeMap) : ∀ (ks : List String) (st : DfsStateI),
    (∀ x ∈ st.visited,
      x ∈ (ks.foldl (fun st k => if k ∈ st.visited then st
        else (dfsI m (m.length + 1) k [] st).1) st).visited) ∧
    (∃ ex, (ks.foldl (fun st k => if k ∈ st.visited then st
        else (dfsI m (m.length + 1) k [] st).1) st).cycles = st.cycles ++ ex) := by
  intro ks
  induction ks with
  | nil => intro st; exact ⟨fun x hx => hx, ⟨[], by simp⟩⟩
  | cons k ks ih =>
    intro st
    simp only [List.foldl_cons]
    by_cases hk : k ∈ st.visited
    · rw [if_pos hk]
      exact ih st
    · rw [if_neg hk]
      have hstep := dfsI_mono m (m.length + 1) k [] st
      have hrec := ih (dfsI m (m.length + 1) k [] st).1
      obtain ⟨ex1, hex1⟩ := hstep.2.1
      obtain ⟨ex2, hex2⟩ := hrec.2
      exact ⟨fun x hx => hrec.1 x (hstep.1 x hx),
        ⟨ex1 ++ ex2, by rw [hex2, hex1, List.append_assoc]⟩⟩

/-- Along the driver fold on a well-formed table: if no cycle has been
recorded, the invariant holds, the stack is empty, and every processed key
has been visited. -/
theorem detectFoldI_clean (m : NodeMap) (hwf : MapWF m) : ∀ (ks : List String)
    (st : DfsStateI), (∀ x ∈ ks, x ∈ keysOf m) →
    (st.cycles = [] → DetInv m st ∧ st.stack = []) →
    ((ks.foldl (fun st k => if k ∈ st.visited then st
        else (dfsI m (m.length + 1) k [] st).1) st).cycles = [] →
      (DetInv m (ks.foldl (fun st k => if k ∈ st.visited then st
        else (dfsI m (m.length + 1) k [] st).1) st) ∧
       (ks.foldl (fun st k => if k ∈ st.visited then st
        else (dfsI m (m.length + 1) k [] st).1) st).stack = [] ∧
       (∀ x ∈ ks, x ∈ (ks.foldl (fun st k => if k ∈ st.visited then st
        else (dfsI m (m.length + 1) k [] st).1) st).visited))) := by
  intro ks
  induction ks with
  | nil =>
    intro st _ hst hcyc
    exact ⟨(hst hcyc).1, (hst hcyc).2, fun x hx => absurd hx (by simp)⟩
  | cons k ks ih =>
    intro st hks hst
    simp only [List.foldl_cons]
    by_cases hk : k ∈ st.visited
    · rw [if_pos hk]
      intro hcyc
      have hrec := ih st (fun x hx => hks x (by simp [hx])) hst hcyc
      refine ⟨hrec.1, hrec.2.1, ?_⟩
      intro x hx
      rcases List.mem_cons.mp hx with rfl | h2
      · exact (detectFoldI_mono m ks st).1 x hk
      · exact hrec.2.2 x h2
    · rw [if_neg hk]
      intro hcyc
      have hmono2 := detectFoldI_mono m ks (dfsI m (m.length + 1) k [] st).1
      obtain ⟨ex2, hex2⟩ := hmono2.2
      have hcyc1 : (dfsI m (m.length + 1) k [] st).1.cycles = [] := by
        rw [hex2] at hcyc
        exact List.append_eq_nil.mp hcyc |>.1
      have hst0 : st.cycles = [] := by
        obtain ⟨ex1, hex1⟩ := (dfsI_mono m (m.length + 1) k [] st).2.1
        rw [hex1] at hcyc1
        exact List.append_eq_nil.mp hcyc1 |>.1
      obtain ⟨hinv, hstk⟩ := hst hst0
      have hfuel : remCount (keysOf m) st.visited ≤ m.length + 1 := by
        have h1 := remCount_le (keysOf m) st.visited
        have h2 : (keysOf m).length = m.length := keysOf_length m
        omega
      have hcall := dfsI_clean m hwf (m.length + 1) k [] st hinv
        (hks k (by simp)) hk hfuel
      rcases hcall with htrue | ⟨-, hpost⟩
      · exfalso
        have := (dfsI_mono m (m.length + 1) k [] st).2.2.1 htrue
        exact this hcyc1
      · obtain ⟨hinv2, hstk2, hvis2, hcyc2, hkex, -⟩ := hpost
        have hrec := ih (dfsI m (m.length + 1) k [] st).1
          (fun x hx => hks x (by simp [hx]))
          (fun _ => ⟨hinv2, by rw [hstk2, hstk]⟩) hcyc
        refine ⟨hrec.1, hrec.2.1, ?_⟩
        intro x hx
        rcases List.mem_cons.mp hx with rfl | h2
        · exact hmono2.1 x (hinv2.ev x hkex)
        · exact hrec.2.2 x h2

/-- A run of the cycle detector that reports no cycles certifies the
absence of directed cycles: every key exits, and exit ranks strictly
decrease along edges. -/
theorem detect_complete (m : NodeMap) (hwf : MapWF m)
    (h : (detectState m).cycles = []) : ¬ HasCycle m := by
  rw [detectState_cycles] at h
  have hinit : DetInv m ⟨[], [], [], []⟩ := by
    refine ⟨?_, ?_, ?_, List.nodup_nil, ?_⟩
    · intro x hx; cases hx
    · intro x hx; cases hx
    · intro x hx; cases hx
    · intro u hu; cases hu
  have h2 : ((m.map Prod.fst).foldl (fun st k => if k ∈ st.visited then st
      else (dfsI m (m.length + 1) k [] st).1) ⟨[], [], [], []⟩).cycles = [] := h
  have hfold := detectFoldI_clean m hwf (m.map Prod.fst) ⟨[], [], [], []⟩
    (fun x hx => hx) (fun _ => ⟨hinit, rfl⟩) h2
  obtain ⟨hinv, hstk, hcov⟩ := hfold
  apply no_cycle_of_ranked m _ hinv.closed
  intro x hx
  have hxv := hcov x hx
  rcases hinv.vse x hxv with h3 | h3
  · rw [hstk] at h3
    cases h3
  · exact h3

theorem head?_drop_indexOf (l : List String) (a : String) (h : a ∈ l) :
    (l.drop (l.indexOf a)).head? = some a := by
  induction l with
  | nil => cases h
  | cons x rest ih =>
    by_cases hx : x = a
    · subst hx
      simp [List.indexOf_cons_self]
    · have har : a ∈ rest := by
        rcases List.mem_cons.mp h with h2 | h2
        · exact absurd h2.symm hx
        · exact h2
      rw [List.indexOf_cons_ne _ hx]
      simp only [List.drop_succ_cons]
      exact ih har

theorem getLast?_drop (l : List String) : ∀ n, n < l.length →
    (l.drop n).getLast? = l.getLast? := by
  induction l with
  | nil => intro n h; simp at h
  | cons x rest ih =>
    intro n h
    cases n with
    | zero => rfl
    | succ k =>
      simp only [List.drop_succ_cons]
      cases rest with
      | nil =>
        simp at h
      | cons y ys =>
        rw [List.getLast?_cons_cons]
        exact ih k (by simpa using h)

/-- A `true` result of the source `dfs` certifies a nonempty recorded
cycle list (via the instrumented simulation). -/
theorem dfs_true_cycles (m : NodeMap) (f : Nat) (k : String) (p : List String)
    (st : DfsState) (h : (dfs m f k p st).2 = true) :
    (dfs m f k p st).1.cycles ≠ [] := by
  obtain ⟨v, s, c⟩ := st
  have hproj : dfs m f k p ⟨v, s, c⟩ =
      (projI (dfsI m f k p ⟨v, s, c, []⟩).1, (dfsI m f k p ⟨v, s, c, []⟩).2) :=
    dfsI_proj m f k p ⟨v, s, c, []⟩
  rw [hproj] at h ⊢
  have h2 : (dfsI m f k p ⟨v, s, c, []⟩).2 = true := h
  exact (dfsI_mono m f k p ⟨v, s, c, []⟩).2.2.1 h2

/-- A clean-so-far run of the dependent loop of the source `dfs`: the
recursion stack equals the traversal path, so a stack hit closes a real
cycle; otherwise the stack is restored and no cycle is recorded. -/
theorem dfsList_sound (m : NodeMap) (hwf : MapWF m) (f : Nat) (key : String)
    (path : List String) (node : SkillNode) (hkey : mapGet m key = some node)
    (ihf : ∀ (k : String) (p : List String) (st : DfsState),
      st.cycles = [] → st.stack = p → (∀ x ∈ p, x ∈ st.visited) → k ∉ st.visited →
      k ∈ keysOf m → walkB m (p ++ [k]) = true →
      HasCycle m ∨
      ((dfs m f k p st).1.cycles = [] ∧ (dfs m f k p st).1.stack = st.stack ∧
       (∀ x ∈ st.visited, x ∈ (dfs m f k p st).1.visited))) :
    ∀ (ds : List String) (st : DfsState),
    st.cycles = [] → st.stack = path ++ [key] →
    (∀ x ∈ path ++ [key], x ∈ st.visited) →
    walkB m (path ++ [key]) = true →
    (∀ d ∈ ds, d ∈ node.dependents) →
    HasCycle m ∨
    ((dfsList (fun d st => dfs m f d (path ++ [key]) st) key (path ++ [key]) ds st).1.cycles = [] ∧
     (dfsList (fun d st => dfs m f d (path ++ [key]) st) key (path ++ [key]) ds st).1.stack =
       setDelete st.stack key ∧
     (∀ x ∈ st.visited,
       x ∈ (dfsList (fun d st => dfs m f d (path ++ [key]) st) key (path ++ [key]) ds st).1.visited)) := by
  intro ds
  induction ds with
  | nil =>
    intro st hcyc hstk hpv hwalk _
    right
    exact ⟨hcyc, rfl, fun x hx => hx⟩
  | cons d ds ih =>
    intro st hcyc hstk hpv hwalk hds
    have hdd : d ∈ node.dependents := hds d (by simp)
    have hedge : edgeB m key d = true := by
      unfold edgeB
      rw [hkey]
      simpa using hdd
    simp only [dfsList]
    by_cases hd : d ∈ st.visited
    · rw [if_neg (show ¬ d ∉ st.visited from not_not_intro hd)]
      by_cases hs : d ∈ st.stack
      · -- stack hit: the path from the first occurrence of `d` plus the
        -- closing edge `key -> d` is a genuine directed cycle
        rw [if_pos hs]
        left
        have hdp : d ∈ path ++ [key] := by rwa [hstk] at hs
        have hidx : (path ++ [key]).indexOf d < (path ++ [key]).length :=
          List.indexOf_lt_length.mpr hdp
        have hhead : ((path ++ [key]).drop ((path ++ [key]).indexOf d)).head? = some d :=
          head?_drop_indexOf (path ++ [key]) d hdp
        have hlast : ((path ++ [key]).drop ((path ++ [key]).indexOf d)).getLast? = some key := by
          rw [getLast?_drop (path ++ [key]) _ hidx]
          exact List.getLast?_concat path
        have hwalk0 : walkB m ((path ++ [key]).drop ((path ++ [key]).indexOf d)) = true :=
          walkB_drop m (path ++ [key]) _ hwalk
        obtain ⟨l0, hl0⟩ : ∃ t, (path ++ [key]).drop ((path ++ [key]).indexOf d) = d :: t := by
          cases hl : (path ++ [key]).drop ((path ++ [key]).indexOf d) with
          | nil => rw [hl] at hhead; cases hhead
          | cons a t =>
            rw [hl] at hhead
            exact ⟨t, by rw [show a = d from by simpa using hhead]⟩
        refine ⟨(d :: l0) ++ [d], ?_⟩
        rw [isCycleList, Bool.and_eq_true, Bool.and_eq_true]
        refine ⟨⟨?_, by simp⟩, by rw [decide_eq_true_eq, List.getLast?_concat]; rfl⟩
        rw [← hl0]
        exact walkB_concat m _ key d hwalk0 hlast hedge
      · rw [if_neg hs]
        exact ih st hcyc hstk hpv hwalk (fun x hx => hds x (by simp [hx]))
    · rw [if_pos hd]
      have hdk : d ∈ keysOf m := hwf.depsOut key node hkey d hdd
      have hwalk1 : walkB m ((path ++ [key]) ++ [d]) = true :=
        walkB_concat m _ key d hwalk (List.getLast?_concat path) hedge
      have hcall := ihf d (path ++ [key]) st hcyc hstk hpv hd hdk hwalk1
      rcases hR : dfs m f d (path ++ [key]) st with ⟨st2, b⟩
      rw [hR] at hcall
      rcases hcall with hc | ⟨hcyc2, hstk2, hvis2⟩
      · exact Or.inl hc
      · cases b with
        | true =>
          exfalso
          have ht : (dfs m f d (path ++ [key]) st).2 = true := by rw [hR]
          have hne := dfs_true_cycles m f d (path ++ [key]) st ht
          rw [hR] at hne
          exact hne hcyc2
        | false =>
          dsimp only
          have hrec := ih st2 hcyc2 (by rw [hstk2, hstk]) (fun x hx => hvis2 x (hpv x hx))
            hwalk (fun x hx => hds x (by simp [hx]))
          rcases hrec with hc | ⟨h1, h2, h3⟩
          · exact Or.inl hc
          · right
            refine ⟨h1, ?_, fun x hx => h3 x (hvis2 x hx)⟩
            rw [h2, hstk2]

/-- A clean-so-far `dfs` call on an unvisited key either certifies a real
cycle or returns with an unchanged stack and no recorded cycle. -/
theorem dfs_sound (m : NodeMap) (hwf : MapWF m) : ∀ (f : Nat) (k : String)
    (p : List String) (st : DfsState),
    st.cycles = [] → st.stack = p → (∀ x ∈ p, x ∈ st.visited) → k ∉ st.visited →
    k ∈ keysOf m → walkB m (p ++ [k]) = true →
    HasCycle m ∨
    ((dfs m f k p st).1.cycles = [] ∧ (dfs m f k p st).1.stack = st.stack ∧
     (∀ x ∈ st.visited, x ∈ (dfs m f k p st).1.visited)) := by
  intro f
  induction f with
  | zero =>
    intro k p st hcyc _ _ _ _ _
    exact Or.inr ⟨hcyc, rfl, fun x hx => hx⟩
  | succ f ihf =>
    intro k p st hcyc hstk hpv hkv hkk hwalk
    obtain ⟨v, s, c⟩ := st
    obtain ⟨node, hget⟩ := mapGet_isSome_of_mem m k hkk
    have hks : k ∉ s := fun h => hkv (hpv k (by rw [← hstk]; exact h))
    have hunfold : dfs m (f + 1) k p ⟨v, s, c⟩ =
        dfsList (fun d st => dfs m f d (p ++ [k]) st) k (p ++ [k]) node.dependents
          ⟨setAdd v k, setAdd s k, c⟩ := by
      conv_lhs => unfold dfs
      simp only [hget]
    have hstk1 : (⟨setAdd v k, setAdd s k, c⟩ : DfsState).stack = p ++ [k] := by
      show setAdd s k = p ++ [k]
      rw [setAdd_not_mem s k hks]
      rw [show s = p from hstk]
    have hloop := dfsList_sound m hwf f k p node hget ihf node.dependents
      ⟨setAdd v k, setAdd s k, c⟩ hcyc hstk1
      (fun x hx => by
        rcases List.mem_append.mp hx with h | h
        · exact (setAdd_mem v k x).mpr (Or.inl (hpv x h))
        · exact (setAdd_mem v k x).mpr (Or.inr (by simpa using h)))
      hwalk (fun d hd => hd)
    rw [hunfold]
    rcases hloop with hc | ⟨h1, h2, h3⟩
    · exact Or.inl hc
    · right
      refine ⟨h1, ?_, fun x hx => h3 x ((setAdd_mem v k x).mpr (Or.inl hx))⟩
      rw [h2]
      show setDelete (setAdd s k) k = s
      rw [setAdd_not_mem s k hks]
      exact erase_append_last s k hks

/-- Along the driver fold of the source detector, either a real cycle
exists or the state stays clean with an empty stack. -/
theorem detectFold_sound (m : NodeMap) (hwf : MapWF m) : ∀ (ks : List String)
    (st : DfsState), (∀ x ∈ ks, x ∈ keysOf m) →
    (HasCycle m ∨ (st.cycles = [] ∧ st.stack = [])) →
    (HasCycle m ∨
     ((ks.foldl (fun st k => if k ∈ st.visited then st
        else (dfs m (m.length + 1) k [] st).1) st).cycles = [] ∧
      (ks.foldl (fun st k => if k ∈ st.visited then st
        else (dfs m (m.length + 1) k [] st).1) st).stack = [])) := by
  intro ks
  induction ks with
  | nil => intro st _ h; exact h
  | cons k ks ih =>
    intro st hks hst
    simp only [List.foldl_cons]
    rcases hst with hc | ⟨hcyc, hstk⟩
    · rcases ih (if k ∈ st.visited then st
        else (dfs m (m.length + 1) k [] st).1) (fun x hx => hks x (by simp [hx]))
        (Or.inl hc) with h | h
      · exact Or.inl h
      · exact Or.inr h
    · by_cases hk : k ∈ st.visited
      · rw [if_pos hk]
        exact ih st (fun x hx => hks x (by simp [hx])) (Or.inr ⟨hcyc, hstk⟩)
      · rw [if_neg hk]
        have hcall := dfs_sound m hwf (m.length + 1) k [] st hcyc hstk
          (fun x hx => absurd hx (by simp)) hk (hks k (by simp)) rfl
        rcases hcall with hc | ⟨h1, h2, _⟩
        · rcases ih (dfs m (m.length + 1) k [] st).1
            (fun x hx => hks x (by simp [hx])) (Or.inl hc) with h | h
          · exact Or.inl h
          · exact Or.inr h
        · exact ih (dfs m (m.length + 1) k [] st).1
            (fun x hx => hks x (by simp [hx])) (Or.inr ⟨h1, by rw [h2, hstk]⟩)

/-- A detector run that records any cycle entry certifies a real directed
cycle in the table (the first record is made with a clean stack). -/
theorem detect_sound (m : NodeMap) (hwf : MapWF m)
    (h : (detectState m).cycles ≠ []) : HasCycle m := by
  have hfold := detectFold_sound m hwf (m.map Prod.fst) ⟨[], [], []⟩
    (fun x hx => hx) (Or.inr ⟨rfl, rfl⟩)
  rcases hfold with hc | ⟨hcyc, -⟩
  · exact hc
  · exact absurd (show (detectState m).cycles = [] from hcyc) h

/-- **C2**: for every composition definition whose built dependency graph
is acyclic, `resolveDependencyGraph` returns an `executionOrder` that
contains every node key (the `alias ?? name` keys of the node table)
exactly once, and for every ordering edge recorded from a constraint
string (`fd` a dependency of `t` in the node table, edges being recorded
only by `parseOrderingConstraint`), `fd` appears strictly before `t` in
`executionOrder` (a split `l1 ++ l2` with `fd ∈ l1` and `t ∈ l2`). -/
theorem C2_topo_order (combo : ComboSkillDefinition)
    (hnc : ¬ HasCycle (graphNodes combo)) :
    ((resolveDependencyGraph combo).executionOrder.Nodup ∧
      (∀ k, k ∈ (resolveDependencyGraph combo).executionOrder ↔
        k ∈ keysOf (graphNodes combo))) ∧
    (∀ t nt, mapGet (graphNodes combo) t = some nt → ∀ fd ∈ nt.dependencies,
      ∃ l1 l2, (resolveDependencyGraph combo).executionOrder = l1 ++ l2 ∧
        fd ∈ l1 ∧ t ∈ l2) := by
  have hwf := graphNodes_wf combo
  have hcyc : (detectState (graphNodes combo)).cycles = [] := by
    by_contra hne
    exact hnc (detect_sound (graphNodes combo) hwf hne)
  have h1 : (detectCycles (graphNodes combo)).hasCycles = false := by
    show (!(detectState (graphNodes combo)).cycles.isEmpty) = false
    rw [hcyc]
    rfl
  have horder : (resolveDependencyGraph combo).executionOrder =
      topologicalSort (graphNodes combo) := by
    show (if (detectCycles (graphNodes combo)).hasCycles = true then []
      else topologicalSort (graphNodes combo)) = topologicalSort (graphNodes combo)
    rw [h1]
    simp
  have hspec := topologicalSort_spec (graphNodes combo) hwf hnc
  rw [horder]
  exact ⟨⟨hspec.1, hspec.2.1⟩, hspec.2.2⟩

theorem C2_topo_order_witness :
    (¬ HasCycle (graphNodes comboA)) ∧
    (((resolveDependencyGraph comboA).executionOrder.Nodup ∧
      (∀ k, k ∈ (resolveDependencyGraph comboA).executionOrder ↔
        k ∈ keysOf (graphNodes comboA))) ∧
    (∀ t nt, mapGet (graphNodes comboA) t = some nt → ∀ fd ∈ nt.dependencies,
      ∃ l1 l2, (resolveDependencyGraph comboA).executionOrder = l1 ++ l2 ∧
        fd ∈ l1 ∧ t ∈ l2)) := by
  have hnc : ¬ HasCycle (graphNodes comboA) :=
    detect_complete (graphNodes comboA) (graphNodes_wf comboA) (by decide)
  exact ⟨hnc, C2_topo_order comboA hnc⟩

/-- **C3**: for every composition definition, the returned graph satisfies
`hasCycles = true` exactly when the `cycles` field is present and
nonempty, `hasCycles = true` forces an empty `executionOrder`, and the
presence of a directed cycle in the node table forces all three. -/
theorem C3_cycle_flags (combo : ComboSkillDefinition) :
    ((resolveDependencyGraph combo).hasCycles = true ↔
      ∃ cs, (resolveDependencyGraph combo).cycles = some cs ∧ cs ≠ []) ∧
    ((resolveDependencyGraph combo).hasCycles = true →
      (resolveDependencyGraph combo).executionOrder = []) ∧
    (HasCycle (graphNodes combo) →
      (resolveDependencyGraph combo).hasCycles = true ∧
      (resolveDependencyGraph combo).executionOrder = [] ∧
      ∃ cs, (resolveDependencyGraph combo).cycles = some cs ∧ cs ≠ []) := by
  have hHC : (resolveDependencyGraph combo).hasCycles =
      !((detectState (graphNodes combo)).cycles.isEmpty) := rfl
  have hCY : (resolveDependencyGraph combo).cycles =
      (if (detectState (graphNodes combo)).cycles.isEmpty then none
       else some (detectState (graphNodes combo)).cycles) := rfl
  have hEO : (resolveDependencyGraph combo).executionOrder =
      (if (!((detectState (graphNodes combo)).cycles.isEmpty)) = true then []
       else topologicalSort (graphNodes combo)) := rfl
  by_cases hemp : (detectState (graphNodes combo)).cycles = []
  · have hnc := detect_complete (graphNodes combo) (graphNodes_wf combo) hemp
    rw [hHC, hCY, hEO, hemp]
    simp
    exact hnc
  · cases hl : (detectState (graphNodes combo)).cycles with
    | nil => exact absurd hl hemp
    | cons a l =>
      rw [hHC, hCY, hEO, hl]
      simp

theorem C3_cycle_flags_witness :
    HasCycle (graphNodes comboB) ∧
    ((resolveDependencyGraph comboB).hasCycles = true ∧
     (resolveDependencyGraph comboB).executionOrder = [] ∧
     ∃ cs, (resolveDependencyGraph comboB).cycles = some cs ∧ cs ≠ []) := by
  have hhc : HasCycle (graphNodes comboB) := ⟨["a", "b", "a"], by decide⟩
  exact ⟨hhc, (C3_cycle_flags comboB).2.2 hhc⟩
